import Mathlib

/-!
Verification of the account-manager Telegram bot's parsing, aggregation and
formatting core, shallowly embedded from the TypeScript sources
(`src/main.ts` and the persisted-storage modules).

Conventions of the embedding:
* JS strings are Lean `String`s (a structure over `List Char`); character
  classes of the regexes (`\s`, `\d`, `.`) are modelled over the ASCII
  whitespace set, which is the set relevant to all inputs of this program.
* The two regexes of the sources are embedded as backtracking matchers in
  continuation-passing style, mirroring the JS engine: greedy pieces try the
  longest extension first and backtrack, lazy pieces try the continuation
  first, alternation tries the left branch to exhaustion before the right.
* `parseInt` applied to an all-digit group is modelled as the numeric value
  of the digits; machine-float rounding of astronomically long digit strings
  is outside the model.
* Nondeterministic ambient inputs (the current date in `main.ts`, the
  `uuid.v7()` fresh identifiers) are passed as explicit parameters.
-/

/-- Whitespace class of the JS regex `\s` and of `String.prototype.trim`,
restricted to the ASCII whitespace characters. -/
def isWs (c : Char) : Bool :=
  c == ' ' || c == '\t' || c == '\n' || c == '\r' || c == '\x0b' || c == '\x0c'

/-- Character class of the JS regex `.` (any character except line
terminators). -/
def isDot (c : Char) : Bool :=
  !(c == '\n' || c == '\r')

/-- Numeric value of an all-digit group, as produced by `parseInt`. -/
def natOfDigits (l : List Char) : Nat :=
  l.foldl (fun n c => 10 * n + (c.toNat - 48)) 0

/-- Leading-whitespace removal (the left half of `String.prototype.trim`). -/
def trimL (l : List Char) : List Char :=
  l.dropWhile (fun c => isWs c)

/-- Trailing-whitespace removal (the right half of `String.prototype.trim`). -/
def trimR (l : List Char) : List Char :=
  (l.reverse.dropWhile (fun c => isWs c)).reverse

/-- JS `String.prototype.trim` on character lists. -/
def jsTrimL (l : List Char) : List Char :=
  trimR (trimL l)

/-- JS `String.prototype.trim`. -/
def jsTrim (s : String) : String :=
  String.mk (jsTrimL s.data)

/-! Backtracking regex pieces in continuation-passing style.  Each piece
receives the group text consumed so far and the remaining input. -/

/-- Greedy star over a character class, with backtracking: consume a further
matching character first, fall back to stopping here. -/
def starG {α : Type} (p : Char → Bool) (acc : List Char) (l : List Char)
    (k : List Char → List Char → Option α) : Option α :=
  match l with
  | [] => k acc []
  | c :: rs =>
    if p c then (starG p (acc ++ [c]) rs k).orElse (fun _ => k acc (c :: rs))
    else k acc (c :: rs)

/-- Greedy plus over a character class: one matching character then the
greedy star. -/
def plusG {α : Type} (p : Char → Bool) (l : List Char)
    (k : List Char → List Char → Option α) : Option α :=
  match l with
  | [] => none
  | c :: rs => if p c then starG p [c] rs k else none

/-- Lazy plus over a character class: after each consumed character try the
continuation first, extend only on failure. -/
def plusL {α : Type} (p : Char → Bool) (acc : List Char) (l : List Char)
    (k : List Char → List Char → Option α) : Option α :=
  match l with
  | [] => none
  | c :: rs =>
    if p c then (k (acc ++ [c]) rs).orElse (fun _ => plusL p (acc ++ [c]) rs k)
    else none

/-- Greedy `\s*`. -/
def wsStar {α : Type} (acc : List Char) (l : List Char)
    (k : List Char → List Char → Option α) : Option α :=
  starG isWs acc l k

/-- Greedy `\s+`. -/
def wsPlus {α : Type} (l : List Char)
    (k : List Char → List Char → Option α) : Option α :=
  plusG isWs l k

/-- Greedy `\d+`. -/
def digitsPlus {α : Type} (l : List Char)
    (k : List Char → List Char → Option α) : Option α :=
  plusG (fun c => c.isDigit) l k

/-- Greedy `.+`. -/
def dotPlusG {α : Type} (l : List Char)
    (k : List Char → List Char → Option α) : Option α :=
  plusG isDot l k

/-- Lazy `.+?`. -/
def dotPlusL {α : Type} (acc : List Char) (l : List Char)
    (k : List Char → List Char → Option α) : Option α :=
  plusL isDot acc l k

/-- Greedy `[+-]?`: consume a sign character if present, backtrack to the
empty match on failure. -/
def signOpt {α : Type} (l : List Char)
    (k : Option Char → List Char → Option α) : Option α :=
  match l with
  | [] => k none []
  | c :: rs =>
    if c == '+' || c == '-' then (k (some c) rs).orElse (fun _ => k none (c :: rs))
    else k none (c :: rs)

/-- Mandatory `[+-]`. -/
def signCh {α : Type} (l : List Char)
    (k : Char → List Char → Option α) : Option α :=
  match l with
  | [] => none
  | c :: rs => if c == '+' || c == '-' then k c rs else none

/-! The anchored message pattern of the persisted implementation:
`/^\s*(?:([+-]?)(\d+)\s+(.+)|(.+?)\s+([+-])(\d+))\s*$/` (`parseMessage`). -/

/-- Continuation of the amount-first branch after the optional sign group:
`(\d+)\s+(.+)` followed by the shared `\s*$`. -/
def contA (g1 : Option Char) (l1 : List Char) :
    Option (Option Char × List Char × List Char) :=
  digitsPlus l1 (fun g2 l2 =>
    wsPlus l2 (fun _ l3 =>
      dotPlusG l3 (fun g3 l4 =>
        wsStar [] l4 (fun _ l5 =>
          if l5.isEmpty then some (g1, g2, g3) else none))))

/-- Alternation branch `([+-]?)(\d+)\s+(.+)` followed by the shared `\s*$`,
returning the captured groups 1–3. -/
def matchA (l : List Char) : Option (Option Char × List Char × List Char) :=
  signOpt l contA

/-- Continuation of the label-first branch after the lazy label group:
`\s+([+-])(\d+)` followed by the shared `\s*$`. -/
def contB (g4 : List Char) (l1 : List Char) : Option (List Char × Char × List Char) :=
  wsPlus l1 (fun _ l2 =>
    signCh l2 (fun g5 l3 =>
      digitsPlus l3 (fun g6 l4 =>
        wsStar [] l4 (fun _ l5 =>
          if l5.isEmpty then some (g4, g5, g6) else none))))

/-- Alternation branch `(.+?)\s+([+-])(\d+)` followed by the shared `\s*$`,
returning the captured groups 4–6. -/
def matchB (l : List Char) : Option (List Char × Char × List Char) :=
  dotPlusL [] l contB

/-- Result of the full anchored pattern: which alternation branch matched,
with its captured groups. -/
inductive MatchGroups : Type
  | amountFirst (g1 : Option Char) (g2 : List Char) (g3 : List Char)
  | labelFirst (g4 : List Char) (g5 : Char) (g6 : List Char)
deriving DecidableEq

/-- The full anchored pattern `^\s*(?:A|B)\s*$`: leading whitespace with
backtracking, then branch A to exhaustion before branch B. -/
def matchPattern (l : List Char) : Option MatchGroups :=
  wsStar [] l (fun _ l0 =>
    ((matchA l0).map (fun g => MatchGroups.amountFirst g.1 g.2.1 g.2.2)).orElse
      (fun _ => (matchB l0).map (fun g => MatchGroups.labelFirst g.1 g.2.1 g.2.2)))

/-- The `sign` field of a parsed transaction (`"positive" | "negative"`). -/
inductive Sign : Type
  | positive
  | negative
deriving DecidableEq

/-- The `ParsedTransaction` record of the persisted implementation. -/
structure ParsedTransaction where
  label : String
  sign : Sign
  amount : Nat
deriving DecidableEq

/-- Builds the result of `parseMessage` when the amount-first branch matched:
`signChar = match[1] || "+"`, `amount = parseInt(match[2])`,
`label = match[3].trim()`. -/
def buildAmountFirst (g1 : Option Char) (g2 g3 : List Char) : ParsedTransaction :=
  { label := jsTrim (String.mk g3)
    sign := if g1.getD '+' = '-' then Sign.negative else Sign.positive
    amount := natOfDigits g2 }

/-- Builds the result of `parseMessage` when the label-first branch matched:
`label = match[4].trim()`, `amount = parseInt(match[6])`. -/
def buildLabelFirst (g4 : List Char) (g5 : Char) (g6 : List Char) : ParsedTransaction :=
  { label := jsTrim (String.mk g4)
    sign := if g5 = '+' then Sign.positive else Sign.negative
    amount := natOfDigits g6 }

/-- The `parseMessage` function of the persisted implementation: trim the
text, run the anchored two-branch pattern, and package the matched groups. -/
def parseMessage (text : String) : Option ParsedTransaction :=
  match matchPattern (jsTrim text).data with
  | none => none
  | some (MatchGroups.amountFirst g1 g2 g3) => some (buildAmountFirst g1 g2 g3)
  | some (MatchGroups.labelFirst g4 g5 g6) => some (buildLabelFirst g4 g5 g6)

/-- Signed value represented by a parsed transaction: the unsigned `amount`
magnitude under the `sign` tag. -/
def ParsedTransaction.signedValue (p : ParsedTransaction) : Int :=
  match p.sign with
  | Sign.positive => (p.amount : Int)
  | Sign.negative => -(p.amount : Int)

/-! The in-memory implementation's line parser (`parseFinancialEntries` of
`src/main.ts`), pattern `/(.+?)\s*([+-]\d+)/`, unanchored: the engine scans
start positions left to right. -/

/-- One attempt of `(.+?)\s*([+-]\d+)` at a fixed start position. -/
def matchLineAt (l : List Char) : Option (List Char × Char × List Char) :=
  dotPlusL [] l (fun g1 l1 =>
    wsStar [] l1 (fun _ l2 =>
      signCh l2 (fun sc l3 =>
        digitsPlus l3 (fun ds _ => some (g1, sc, ds)))))

/-- Unanchored search: try the pattern at every start position, leftmost
first (the semantics of `String.prototype.match` without `/g`). -/
def scanMatch : List Char → Option (List Char × Char × List Char)
  | [] => none
  | c :: rs => (matchLineAt (c :: rs)).orElse (fun _ => scanMatch rs)

/-- The `FinancialEntry` record of the in-memory implementation. -/
structure FinancialEntry where
  description : String
  amount : Int
  date : String
deriving DecidableEq

/-- `parseInt` on group 2 of the line pattern, which is the sign character
followed by the digits. -/
def signedAmount (sc : Char) (ds : List Char) : Int :=
  if sc = '-' then -(natOfDigits ds : Int) else (natOfDigits ds : Int)

/-- One line of `parseFinancialEntries`: an entry when the pattern matches
somewhere in the line, nothing otherwise.  `currentDate` stands for the
ambient `new Date().toISOString().split("T")[0]`. -/
def parseLine (currentDate : String) (line : String) : Option FinancialEntry :=
  match scanMatch line.data with
  | some (g1, sc, ds) =>
    some { description := jsTrim (String.mk g1)
           amount := signedAmount sc ds
           date := currentDate }
  | none => none

/-- Splitting on `'\n'` (JS `text.split("\n")`), on character lists. -/
def splitNlL : List Char → List (List Char)
  | [] => [[]]
  | c :: rs =>
    if c = '\n' then [] :: splitNlL rs
    else
      match splitNlL rs with
      | [] => [[c]]
      | h :: t => (c :: h) :: t

/-- JS `text.split("\n")`. -/
def jsSplitNl (s : String) : List String :=
  (splitNlL s.data).map String.mk

/-- The `parseFinancialEntries` function of `src/main.ts`: split into lines,
keep the lines whose trim is non-empty, and collect the per-line matches in
order. -/
def parseFinancialEntries (currentDate : String) (text : String) : List FinancialEntry :=
  ((jsSplitNl text).filter (fun line => !(jsTrim line == ""))).filterMap
    (parseLine currentDate)

/-! Report formatting of the persisted implementation (`parseTransactions`)
and its data model (`Transaction` of `types.ts`, with the integer amounts the
parser produces). -/

/-- The `Transaction` record of the persisted implementation. -/
structure Transaction where
  id : String
  label : String
  amount : Int
  account : String
deriving DecidableEq

/-- Comma insertion of `Number.prototype.toLocaleString` (default `en-US`
locale) on the reversed digit list: a separator after every third digit. -/
def group3 : List Char → List Char
  | d1 :: d2 :: d3 :: d4 :: rest => d1 :: d2 :: d3 :: ',' :: group3 (d4 :: rest)
  | l => l

/-- `Number.prototype.toLocaleString` on a non-negative integer under the
default `en-US` locale: decimal digits with thousands separators. -/
def toLocaleStr (n : Nat) : String :=
  String.mk (group3 (toString n).data.reverse).reverse

/-- The `parseTransactions` report formatter of the persisted implementation:
one line per transaction (emoji marker, sign, `Math.abs` of the amount with
locale separators, quoted label), then a blank line and the total line. -/
def parseTransactions (transactions : List Transaction) : String :=
  let total := transactions.foldl (fun sum t => sum + t.amount) 0
  let text := String.intercalate "\n" (transactions.map (fun t =>
    (if 0 ≤ t.amount then "💰" else "💸") ++ " " ++
      (if 0 ≤ t.amount then "+" else "-") ++ toLocaleStr t.amount.natAbs ++
      "  \"" ++ t.label ++ "\""))
  let totalEmoji := if 0 ≤ total then "📈" else "📉"
  let totalSign := if 0 ≤ total then "+" else "-"
  text ++ "\n\n" ++ totalEmoji ++ " Total: " ++ totalSign ++ toLocaleStr total.natAbs

/-! Specification-side rendering, written from the wording of §4.2 of the
spec, to be compared with `parseTransactions` by refinement. -/

/-- Modelled from the spec: signed sum of a sequence of amounts, defined by
primitive recursion (empty sequence yields 0). -/
def specSum : List Int → Int
  | [] => 0
  | a :: as => a + specSum as

/-- Modelled from the spec: the shared sign-and-format convention — an
explicit `+` for non-negative values, `-` for negative values, and in both
cases the absolute value with locale-style thousands separators. -/
def specSigned (n : Int) : String :=
  if 0 ≤ n then "+" ++ toLocaleStr n.natAbs else "-" ++ toLocaleStr n.natAbs

/-- Modelled from the spec: the positive/negative indicator of an entry. -/
def specIndicator (n : Int) : String :=
  if 0 ≤ n then "💰" else "💸"

/-- Modelled from the spec: one rendered entry,
`<marker> <signed-amount> "<label>"`. -/
def specEntryLine (t : Transaction) : String :=
  specIndicator t.amount ++ " " ++ specSigned t.amount ++ "  \"" ++ t.label ++ "\""

/-- Modelled from the spec: the total line, using the same sign and format
convention as individual entries, with its own indicator. -/
def specTotalLine (total : Int) : String :=
  (if 0 ≤ total then "📈" else "📉") ++ " Total: " ++ specSigned total

/-- Modelled from the spec: the rendered report — each entry in insertion
order, then the total line summarizing the balance. -/
def specReport (transactions : List Transaction) : String :=
  String.intercalate "\n" (transactions.map specEntryLine) ++ "\n\n" ++
    specTotalLine (specSum (transactions.map Transaction.amount))

/-! The in-memory store of `src/main.ts`: the `receipts` and `userSessions`
maps, and the command handlers that mutate them. -/

/-- The `Receipt` record of `src/main.ts`. -/
structure Receipt where
  name : String
  entries : List FinancialEntry
deriving DecidableEq

/-- Insertion-ordered association-list update, as JS `Map.set`: an existing
key keeps its position, a new key is appended. -/
def alSet {κ ν : Type} [BEq κ] (m : List (κ × ν)) (k : κ) (v : ν) : List (κ × ν) :=
  match m with
  | [] => [(k, v)]
  | (k', v') :: rest => if k' == k then (k, v) :: rest else (k', v') :: alSet rest k v

/-- JS `Map.delete`. -/
def alDelete {κ ν : Type} [BEq κ] (m : List (κ × ν)) (k : κ) : List (κ × ν) :=
  m.filter (fun p => !(p.1 == k))

/-- The global mutable state of `src/main.ts`: the `receipts` map and the
`userSessions` map (a session is its optional `currentReceipt`). -/
structure MemState where
  receipts : List (String × Receipt)
  sessions : List (Nat × Option String)
deriving DecidableEq

/-- The empty initial state of the process. -/
def initialState : MemState := { receipts := [], sessions := [] }

/-- `getUserSession`: create the session on first reference, then return it. -/
def getUserSession (st : MemState) (uid : Nat) : Option String × MemState :=
  match st.sessions.lookup uid with
  | some s => (s, st)
  | none => (none, { st with sessions := alSet st.sessions uid none })

/-- `getReceipt`: create the receipt on first reference, then return it. -/
def getReceiptState (st : MemState) (name : String) : Receipt × MemState :=
  match st.receipts.lookup name with
  | some r => (r, st)
  | none =>
    let r : Receipt := { name := name, entries := [] }
    (r, { st with receipts := alSet st.receipts name r })

/-- `addEntriesToReceipt`: get-or-create the receipt and append the entries. -/
def addEntriesToReceipt (st : MemState) (name : String)
    (entries : List FinancialEntry) : MemState :=
  let (r, st1) := getReceiptState st name
  { st1 with receipts := alSet st1.receipts name { r with entries := r.entries ++ entries } }

/-- `calculateReceiptTotal`: 0 for an unknown receipt, otherwise the
`reduce` of the entry amounts. -/
def calculateReceiptTotal (st : MemState) (name : String) : Int :=
  match st.receipts.lookup name with
  | none => 0
  | some r => r.entries.foldl (fun total e => total + e.amount) 0

/-- Entry sequence currently held by a receipt (empty for an unknown name);
used to state balance and append-order properties. -/
def entriesOf (st : MemState) (name : String) : List FinancialEntry :=
  ((st.receipts.lookup name).map Receipt.entries).getD []

/-- Rendering of one entry line of `formatResponse`. -/
def formatEntryLine (e : FinancialEntry) : String :=
  "- " ++ e.description ++ " " ++ (if 0 ≤ e.amount then "+" else "") ++
    toString e.amount ++ " [" ++ e.date ++ "]\n"

/-- `formatResponse`: the "not found" message for an unknown receipt,
otherwise the header, every entry line in order, and the total line. -/
def formatResponse (st : MemState) (name : String) : String :=
  match st.receipts.lookup name with
  | none => "Receipt \"" ++ name ++ "\" not found."
  | some r =>
    let total := calculateReceiptTotal st name
    "**Receipt: " ++ name ++ "**\n\n" ++ "```\n" ++
      String.join (r.entries.map formatEntryLine) ++
      "\nTotal: " ++ (if 0 ≤ total then "+" else "") ++ toString total ++ "\n" ++ "```"

/-- The `/current` handler's reply (and the session lazily created by
`getUserSession`): help text with no selected receipt, the "No entries yet."
message when the selected receipt is missing or empty, the full report
otherwise. -/
def currentReply (st : MemState) (uid : Nat) : String × MemState :=
  let (sess, st1) := getUserSession st uid
  match sess with
  | none =>
    ("No current receipt selected. Use /new <receipt_name> or /switch <receipt_name>", st1)
  | some name =>
    match st1.receipts.lookup name with
    | none => ("📋 Current receipt: \"" ++ name ++ "\"\nNo entries yet.", st1)
    | some r =>
      if r.entries.isEmpty then
        ("📋 Current receipt: \"" ++ name ++ "\"\nNo entries yet.", st1)
      else (formatResponse st1 name, st1)

/-- The message with which `/current` reports an empty or missing selected
receipt. -/
def noEntriesMsg (name : String) : String :=
  "📋 Current receipt: \"" ++ name ++ "\"\nNo entries yet."

/-- The `/new <name>` handler (with the name argument already joined):
create the receipt and make it the user's current one. -/
def newCommand (st : MemState) (uid : Nat) (name : String) : MemState :=
  let (_, st1) := getReceiptState st name
  let (_, st2) := getUserSession st1 uid
  { st2 with sessions := alSet st2.sessions uid (some name) }

/-- The `/switch <name>` handler: only an existing receipt can become the
current one. -/
def switchCommand (st : MemState) (uid : Nat) (name : String) : MemState :=
  if (st.receipts.lookup name).isSome then
    let (_, st1) := getUserSession st uid
    { st1 with sessions := alSet st1.sessions uid (some name) }
  else st

/-- The `/delete <name>` handler: remove an existing receipt from the map
and clear the invoking user's session if it pointed at it. -/
def deleteCommand (st : MemState) (uid : Nat) (name : String) : MemState :=
  if (st.receipts.lookup name).isSome then
    let st1 : MemState := { st with receipts := alDelete st.receipts name }
    let (sess, st2) := getUserSession st1 uid
    if sess = some name then { st2 with sessions := alSet st2.sessions uid none }
    else st2
  else st

/-- The `/clear` handler: empty the entry list of the user's current
receipt, if any. -/
def clearCommand (st : MemState) (uid : Nat) : MemState :=
  let (sess, st1) := getUserSession st uid
  match sess with
  | none => st1
  | some name =>
    match st1.receipts.lookup name with
    | none => st1
    | some r => { st1 with receipts := alSet st1.receipts name { r with entries := [] } }

/-- JS `text.startsWith("/")`. -/
def startsWithSlash (text : String) : Bool :=
  text.data.head? == some '/'

/-- The plain-text message handler (`bot.on("text")`): skip commands, require
a current receipt, parse the entries, and append them all when at least one
line matched. -/
def onText (st : MemState) (uid : Nat) (currentDate text : String) : MemState :=
  if startsWithSlash text then st
  else
    let (sess, st1) := getUserSession st uid
    match sess with
    | none => st1
    | some name =>
      let entries := parseFinancialEntries currentDate text
      if entries.isEmpty then st1
      else addEntriesToReceipt st1 name entries

/-- One inbound event of the in-memory bot, for stating properties over
arbitrary interaction sequences. -/
inductive MemOp : Type
  | newR (uid : Nat) (name : String)
  | switchR (uid : Nat) (name : String)
  | deleteR (uid : Nat) (name : String)
  | clearR (uid : Nat)
  | textMsg (uid : Nat) (date text : String)

/-- Event dispatch. -/
def applyOp (st : MemState) : MemOp → MemState
  | MemOp.newR uid name => newCommand st uid name
  | MemOp.switchR uid name => switchCommand st uid name
  | MemOp.deleteR uid name => deleteCommand st uid name
  | MemOp.clearR uid => clearCommand st uid
  | MemOp.textMsg uid date text => onText st uid date text

/-- A whole interaction sequence, applied from the initial empty state. -/
def applyOps (ops : List MemOp) : MemState :=
  ops.foldl applyOp initialState

/-! The persisted store (`db.ts`): account and transaction creation with the
validation the code performs.  A JS `number` is modelled with its IEEE
special values made explicit, since the validation distinguishes only `NaN`;
finite values are carried exactly. -/

/-- A JS `number` as far as the store's validation can observe it. -/
inductive JSNum : Type
  | nan
  | inf
  | negInf
  | finite (q : ℚ)
deriving DecidableEq

/-- JS `isNaN` on a number. -/
def JSNum.isNaN : JSNum → Bool
  | JSNum.nan => true
  | _ => false

/-- The `Account` record of the persisted implementation. -/
structure Account where
  id : String
  name : String
deriving DecidableEq

/-- A stored transaction row, with the amount as the JS number the code
inserted. -/
structure DbTransaction where
  id : String
  label : String
  amount : JSNum
  account : String
deriving DecidableEq

/-- The `CreateTransactionParams` record of `types.ts`. -/
structure CreateTransactionParams where
  label : String
  amount : JSNum
  accountId : String
deriving DecidableEq

/-- The two tables of the SQLite database, rows in insertion order. -/
structure DBState where
  accounts : List Account
  transactions : List DbTransaction
deriving DecidableEq

/-- `createAccount`: reject an empty (or all-whitespace) name before the
insert, otherwise insert and return the account.  The fresh `uuid.v7()` is
the `id` parameter. -/
def createAccount (st : DBState) (id : String) (name : String) :
    Except String (Account × DBState) :=
  if name = "" ∨ jsTrim name = "" then Except.error "Account name cannot be empty"
  else
    let a : Account := { id := id, name := jsTrim name }
    Except.ok (a, { st with accounts := st.accounts ++ [a] })

/-- `createTransaction`: the label, amount and account-id checks the code
performs (in its order), then the account-existence lookup, then the insert.
Only `NaN` fails the amount check; the `typeof` test is vacuous for a typed
`number`. -/
def createTransaction (st : DBState) (id : String) (p : CreateTransactionParams) :
    Except String (DbTransaction × DBState) :=
  if p.label = "" ∨ jsTrim p.label = "" then
    Except.error "Transaction label cannot be empty"
  else if p.amount.isNaN then
    Except.error "Transaction amount must be a valid number"
  else if p.accountId = "" ∨ jsTrim p.accountId = "" then
    Except.error "Account ID cannot be empty"
  else
    match st.accounts.find? (fun a => a.id == p.accountId) with
    | none => Except.error ("Account with ID " ++ p.accountId ++ " does not exist")
    | some _ =>
      let t : DbTransaction :=
        { id := id, label := jsTrim p.label, amount := p.amount, account := p.accountId }
      Except.ok (t, { st with transactions := st.transactions ++ [t] })

/-! Specification-side grammar of §4.1, for the totality and whole-line
claims: a trimmed line matches the amount-first grammar or the label-first
grammar exactly when it decomposes as below. -/

/-- Modelled from the spec: the amount-first grammar — an optional sign
character, one or more digits, whitespace, then a non-empty free-text label
covering the rest of the line. -/
def AmountFirstGrammar (l : List Char) : Prop :=
  ∃ sgn ds w lbl : List Char,
    (sgn = [] ∨ sgn = ['+'] ∨ sgn = ['-']) ∧
    ds ≠ [] ∧ (∀ c ∈ ds, c.isDigit = true) ∧
    w ≠ [] ∧ (∀ c ∈ w, isWs c = true) ∧
    lbl ≠ [] ∧
    l = sgn ++ ds ++ w ++ lbl

/-- Modelled from the spec: the label-first grammar — a non-empty free-text
label, whitespace, a mandatory sign character, then digits running to the
end of the line. -/
def LabelFirstGrammar (l : List Char) : Prop :=
  ∃ (lbl w : List Char) (sc : Char) (ds : List Char),
    lbl ≠ [] ∧
    w ≠ [] ∧ (∀ c ∈ w, isWs c = true) ∧
    (sc = '+' ∨ sc = '-') ∧
    ds ≠ [] ∧ (∀ c ∈ ds, c.isDigit = true) ∧
    l = lbl ++ w ++ sc :: ds

/-! Character-class facts used throughout the proofs. -/

theorem not_sign_of_isWs {c : Char} (h : isWs c = true) : (c == '+' || c == '-') = false := by
  simp only [isWs, Bool.or_eq_true, beq_iff_eq] at h
  rcases h with ((((h | h) | h) | h) | h) | h <;> subst h <;> decide

theorem not_sign_of_isDigit {c : Char} (h : c.isDigit = true) :
    (c == '+' || c == '-') = false := by
  by_cases h1 : c = '+'
  · subst h1; exact absurd h (by decide)
  · by_cases h2 : c = '-'
    · subst h2; exact absurd h (by decide)
    · simp [h1, h2]

theorem isWs_false_of_isDigit {c : Char} (h : c.isDigit = true) : isWs c = false := by
  by_cases hw : isWs c = true
  · simp only [isWs, Bool.or_eq_true, beq_iff_eq] at hw
    rcases hw with ((((h' | h') | h') | h') | h') | h' <;> subst h' <;>
      exact absurd h (by decide)
  · exact Bool.eq_false_iff.mpr (fun he => hw he)

theorem isDot_of_isDigit {c : Char} (h : c.isDigit = true) : isDot c = true := by
  by_cases h1 : c = '\n'
  · subst h1; exact absurd h (by decide)
  · by_cases h2 : c = '\r'
    · subst h2; exact absurd h (by decide)
    · simp [isDot, h1, h2]

theorem isWs_false_of_sign {c : Char} (h : c = '+' ∨ c = '-') : isWs c = false := by
  rcases h with h | h <;> subst h <;> decide

theorem isDigit_false_of_sign {c : Char} (h : c = '+' ∨ c = '-') : c.isDigit = false := by
  rcases h with h | h <;> subst h <;> decide

/-! Small `Option.orElse` facts. -/

theorem orElse_eq_some_iff {α : Type} (x : Option α) (f : Unit → Option α) (r : α) :
    x.orElse f = some r ↔ x = some r ∨ (x = none ∧ f () = some r) := by
  cases x <;> simp [Option.orElse]

theorem orElse_of_some {α : Type} (a : α) (f : Unit → Option α) :
    (some a).orElse f = some a := rfl

theorem orElse_of_none {α : Type} (f : Unit → Option α) :
    (none : Option α).orElse f = f () := rfl

/-! Leading-character predicates and trimming facts. -/

/-- The head of the list, if any, fails the class `p`. -/
def HeadNot (p : Char → Bool) : List Char → Prop
  | [] => True
  | c :: _ => p c = false

instance instDecidableHeadNot (p : Char → Bool) : (l : List Char) → Decidable (HeadNot p l)
  | [] => isTrue trivial
  | c :: _ => inferInstanceAs (Decidable (p c = false))

theorem headNot_nil (p : Char → Bool) : HeadNot p [] := trivial

theorem headNot_cons {p : Char → Bool} {c : Char} {l : List Char} (h : p c = false) :
    HeadNot p (c :: l) := h

theorem dropWhile_eq_self_of_headNot {p : Char → Bool} {l : List Char}
    (h : HeadNot p l) : l.dropWhile p = l := by
  cases l with
  | nil => rfl
  | cons c rs => simp [List.dropWhile, HeadNot] at h ⊢; simp [h]

theorem headNot_dropWhile (p : Char → Bool) (l : List Char) :
    HeadNot p (l.dropWhile p) := by
  induction l with
  | nil => trivial
  | cons c rs ih =>
    by_cases h : p c = true
    · simpa [List.dropWhile, h] using ih
    · have h' : p c = false := Bool.eq_false_iff.mpr (fun he => h he)
      have hd : (c :: rs).dropWhile p = c :: rs := by simp [List.dropWhile, h']
      rw [hd]
      exact h'

theorem dropWhile_append_of_ne {p : Char → Bool} {l1 : List Char} (l2 : List Char)
    (h : l1.dropWhile p ≠ []) :
    (l1 ++ l2).dropWhile p = l1.dropWhile p ++ l2 := by
  induction l1 with
  | nil => exact absurd rfl h
  | cons c rs ih =>
    by_cases hc : p c = true
    · simp only [List.dropWhile, hc] at h ⊢
      simpa [List.cons_append, List.dropWhile, hc] using ih h
    · have hc' : p c = false := Bool.eq_false_iff.mpr (fun he => hc he)
      simp [List.cons_append, List.dropWhile, hc']

theorem dropWhile_append_of_all {p : Char → Bool} {l1 : List Char} (l2 : List Char)
    (h : ∀ c ∈ l1, p c = true) :
    (l1 ++ l2).dropWhile p = l2.dropWhile p := by
  induction l1 with
  | nil => rfl
  | cons c rs ih =>
    have hc := h c (List.mem_cons_self c rs)
    simp only [List.cons_append, List.dropWhile, hc]
    exact ih (fun x hx => h x (List.mem_cons_of_mem c hx))

theorem dropWhile_ne_nil_of_mem {p : Char → Bool} {l : List Char} {x : Char}
    (hx : x ∈ l) (hpx : p x = false) : l.dropWhile p ≠ [] := by
  induction l with
  | nil => cases hx
  | cons c rs ih =>
    by_cases hc : p c = true
    · simp only [List.dropWhile, hc]
      rcases List.mem_cons.mp hx with rfl | hx'
      · exact absurd hc (by simp [hpx])
      · exact ih hx'
    · have hc' : p c = false := Bool.eq_false_iff.mpr (fun he => hc he)
      simp [List.dropWhile, hc']

theorem mem_of_dropWhile {p : Char → Bool} {l : List Char} {x : Char}
    (hx : x ∈ l.dropWhile p) : x ∈ l := by
  induction l with
  | nil => cases hx
  | cons c rs ih =>
    by_cases hc : p c = true
    · simp only [List.dropWhile, hc] at hx
      exact List.mem_cons_of_mem c (ih hx)
    · have hc' : p c = false := Bool.eq_false_iff.mpr (fun he => hc he)
      simpa [List.dropWhile, hc'] using hx

theorem all_takeWhile {p : Char → Bool} (l : List Char) :
    ∀ c ∈ l.takeWhile p, p c = true := by
  induction l with
  | nil => intro c hc; cases hc
  | cons c rs ih =>
    intro x hx
    by_cases hc : p c = true
    · simp only [List.takeWhile, hc] at hx
      rcases List.mem_cons.mp hx with rfl | hx'
      · exact hc
      · exact ih x hx'
    · have hc' : p c = false := Bool.eq_false_iff.mpr (fun he => hc he)
      simp [List.takeWhile, hc'] at hx

theorem takeWhile_append_dropWhile (p : Char → Bool) (l : List Char) :
    l.takeWhile p ++ l.dropWhile p = l := List.takeWhile_append_dropWhile p l

/-! Facts about the two halves of `trim`. -/

theorem trimL_eq_self {l : List Char} (h : HeadNot isWs l) : trimL l = l :=
  dropWhile_eq_self_of_headNot h

theorem headNot_trimL (l : List Char) : HeadNot isWs (trimL l) :=
  headNot_dropWhile (fun c => isWs c) l

theorem trimR_eq_self {l : List Char} (h : HeadNot isWs l.reverse) : trimR l = l := by
  unfold trimR
  rw [dropWhile_eq_self_of_headNot h, List.reverse_reverse]

theorem headNot_reverse_trimR (l : List Char) : HeadNot isWs (trimR l).reverse := by
  unfold trimR
  rw [List.reverse_reverse]
  exact headNot_dropWhile (fun c => isWs c) l.reverse

/-- Trailing-whitespace removal leaves a prefix of the original list, the
removed suffix being all whitespace. -/
theorem trimR_decomp (l : List Char) :
    ∃ z, l = trimR l ++ z ∧ ∀ c ∈ z, isWs c = true := by
  refine ⟨(l.reverse.takeWhile (fun c => isWs c)).reverse, ?_, ?_⟩
  · unfold trimR
    rw [← List.reverse_append, takeWhile_append_dropWhile, List.reverse_reverse]
  · intro c hc
    rw [List.mem_reverse] at hc
    exact all_takeWhile l.reverse c hc

theorem trimR_append_of_mem {a b : List Char} {x : Char} (hx : x ∈ b)
    (hpx : isWs x = false) : trimR (a ++ b) = a ++ trimR b := by
  unfold trimR
  rw [List.reverse_append]
  rw [dropWhile_append_of_ne a.reverse
    (dropWhile_ne_nil_of_mem (List.mem_reverse.mpr hx) hpx)]
  rw [List.reverse_append, List.reverse_reverse]

theorem trimR_append_of_all {a w : List Char} (hw : ∀ c ∈ w, isWs c = true) :
    trimR (a ++ w) = trimR a := by
  unfold trimR
  rw [List.reverse_append]
  rw [dropWhile_append_of_all a.reverse (fun c hc => hw c (List.mem_reverse.mp hc))]

theorem headNot_trimR {l : List Char} (h : HeadNot isWs l) : HeadNot isWs (trimR l) := by
  obtain ⟨z, hz, -⟩ := trimR_decomp l
  cases htr : trimR l with
  | nil => trivial
  | cons c rs =>
    rw [htr] at hz
    rw [hz] at h
    exact h

theorem mem_trimR {l : List Char} {x : Char} (hx : x ∈ trimR l) : x ∈ l := by
  obtain ⟨z, hz, -⟩ := trimR_decomp l
  rw [hz]
  exact List.mem_append.mpr (Or.inl hx)

theorem headNot_jsTrimL (l : List Char) : HeadNot isWs (jsTrimL l) :=
  headNot_trimR (headNot_trimL l)

theorem headNot_reverse_jsTrimL (l : List Char) : HeadNot isWs (jsTrimL l).reverse :=
  headNot_reverse_trimR (trimL l)

/-- A list with a whitespace-free head and last character is fixed by
`jsTrimL`. -/
theorem jsTrimL_eq_self {l : List Char} (h1 : HeadNot isWs l)
    (h2 : HeadNot isWs l.reverse) : jsTrimL l = l := by
  unfold jsTrimL
  rw [trimL_eq_self h1, trimR_eq_self h2]

/-! Completeness facts for the backtracking pieces: when the input
decomposes along the greedy reading and the continuation accepts, the piece
returns the continuation's value. -/

theorem starG_nil {α : Type} (p : Char → Bool) (k : List Char → List Char → Option α)
    (acc : List Char) : starG p acc [] k = k acc [] := rfl

theorem starG_cons {α : Type} (p : Char → Bool) (k : List Char → List Char → Option α)
    (acc : List Char) (c : Char) (rs : List Char) :
    starG p acc (c :: rs) k =
      if p c then (starG p (acc ++ [c]) rs k).orElse (fun _ => k acc (c :: rs))
      else k acc (c :: rs) := rfl

theorem starG_of {α : Type} (p : Char → Bool) (k : List Char → List Char → Option α)
    (r : α) :
    ∀ (w acc rest : List Char), (∀ c ∈ w, p c = true) → HeadNot p rest →
      k (acc ++ w) rest = some r → starG p acc (w ++ rest) k = some r := by
  intro w
  induction w with
  | nil =>
    intro acc rest _ hrest hk
    cases rest with
    | nil => simpa [starG] using hk
    | cons c rs =>
      have hc : p c = false := hrest
      simpa [starG, hc] using hk
  | cons c w' ih =>
    intro acc rest hw hrest hk
    have hc : p c = true := hw c (List.mem_cons_self c w')
    have hk' : k ((acc ++ [c]) ++ w') rest = some r := by
      simpa [List.append_assoc] using hk
    have hrec := ih (acc ++ [c]) rest (fun x hx => hw x (List.mem_cons_of_mem c hx)) hrest hk'
    rw [List.cons_append, starG_cons, if_pos hc, hrec]
    rfl

theorem plusG_of {α : Type} (p : Char → Bool) (k : List Char → List Char → Option α)
    (r : α) (w rest : List Char) (hw : ∀ c ∈ w, p c = true) (hne : w ≠ [])
    (hrest : HeadNot p rest) (hk : k w rest = some r) :
    plusG p (w ++ rest) k = some r := by
  cases w with
  | nil => exact absurd rfl hne
  | cons c w' =>
    have hc : p c = true := hw c (List.mem_cons_self c w')
    simp only [List.cons_append, plusG, hc, if_pos]
    exact starG_of p k r w' [c] rest (fun x hx => hw x (List.mem_cons_of_mem c hx)) hrest hk

/-! Failure of the label-first tail when the whitespace run ends at a
non-sign character: every stopping point of the greedy `\s*` offers the
mandatory `[+-]` either a whitespace character or that non-sign character. -/

theorem starG_sign_fail {α : Type} (k3 : Char → List Char → Option α) :
    ∀ (w acc : List Char) (c2 : Char) (r2 : List Char),
      (∀ c ∈ w, isWs c = true) → isWs c2 = false → (c2 == '+' || c2 == '-') = false →
      starG isWs acc (w ++ c2 :: r2) (fun _ r => signCh r k3) = none := by
  intro w
  induction w with
  | nil =>
    intro acc c2 r2 _ hc2 hsign
    simp [starG, hc2, signCh, hsign]
  | cons c w' ih =>
    intro acc c2 r2 hw hc2 hsign
    have hc : isWs c = true := hw c (List.mem_cons_self c w')
    have hrec := ih (acc ++ [c]) c2 r2 (fun x hx => hw x (List.mem_cons_of_mem c hx)) hc2 hsign
    rw [List.cons_append, starG_cons, if_pos hc, hrec]
    simp [orElse_of_none, signCh, not_sign_of_isWs hc]

/-! Soundness facts: a successful run of a piece decomposes its input. -/

theorem starG_sound {α : Type} (p : Char → Bool) (k : List Char → List Char → Option α)
    (r : α) :
    ∀ (l acc : List Char), starG p acc l k = some r →
      ∃ w rest, l = w ++ rest ∧ (∀ c ∈ w, p c = true) ∧ k (acc ++ w) rest = some r := by
  intro l
  induction l with
  | nil =>
    intro acc h
    exact ⟨[], [], rfl, by simp, by simpa [starG] using h⟩
  | cons c rs ih =>
    intro acc h
    by_cases hc : p c = true
    · simp only [starG, hc, if_pos] at h
      rcases (orElse_eq_some_iff _ _ _).mp h with h1 | ⟨-, h2⟩
      · obtain ⟨w', rest, hrs, hall, hk⟩ := ih (acc ++ [c]) h1
        refine ⟨c :: w', rest, by simp [hrs], ?_, ?_⟩
        · intro x hx
          rcases List.mem_cons.mp hx with rfl | hx'
          · exact hc
          · exact hall x hx'
        · simpa [List.append_assoc] using hk
      · exact ⟨[], c :: rs, rfl, by simp, by simpa using h2⟩
    · have hc' : p c = false := Bool.eq_false_iff.mpr (fun he => hc he)
      simp only [starG, hc', if_neg, Bool.false_eq_true, not_false_iff] at h
      exact ⟨[], c :: rs, rfl, by simp, by simpa using h⟩

theorem plusG_sound {α : Type} (p : Char → Bool) (k : List Char → List Char → Option α)
    (r : α) (l : List Char) (h : plusG p l k = some r) :
    ∃ w rest, l = w ++ rest ∧ w ≠ [] ∧ (∀ c ∈ w, p c = true) ∧ k w rest = some r := by
  cases l with
  | nil => simp [plusG] at h
  | cons c rs =>
    by_cases hc : p c = true
    · simp only [plusG, hc, if_pos] at h
      obtain ⟨w', rest, hrs, hall, hk⟩ := starG_sound p k r rs [c] h
      refine ⟨c :: w', rest, by simp [hrs], by simp, ?_, by simpa using hk⟩
      intro x hx
      rcases List.mem_cons.mp hx with rfl | hx'
      · exact hc
      · exact hall x hx'
    · have hc' : p c = false := Bool.eq_false_iff.mpr (fun he => hc he)
      simp [plusG, hc'] at h

theorem plusL_sound {α : Type} (p : Char → Bool) (k : List Char → List Char → Option α)
    (r : α) :
    ∀ (l acc : List Char), plusL p acc l k = some r →
      ∃ g rest, l = g ++ rest ∧ g ≠ [] ∧ (∀ c ∈ g, p c = true) ∧
        k (acc ++ g) rest = some r := by
  intro l
  induction l with
  | nil => intro acc h; simp [plusL] at h
  | cons c rs ih =>
    intro acc h
    by_cases hc : p c = true
    · simp only [plusL, hc, if_pos] at h
      rcases (orElse_eq_some_iff _ _ _).mp h with h1 | ⟨-, h2⟩
      · exact ⟨[c], rs, rfl, by simp, by simp [hc], by simpa using h1⟩
      · obtain ⟨g', rest, hrs, hne, hall, hk⟩ := ih (acc ++ [c]) h2
        refine ⟨c :: g', rest, by simp [hrs], by simp, ?_, by simpa [List.append_assoc] using hk⟩
        intro x hx
        rcases List.mem_cons.mp hx with rfl | hx'
        · exact hc
        · exact hall x hx'
    · have hc' : p c = false := Bool.eq_false_iff.mpr (fun he => hc he)
      simp [plusL, hc'] at h

theorem signOpt_sound {α : Type} (k : Option Char → List Char → Option α) (r : α)
    (l : List Char) (h : signOpt l k = some r) :
    (∃ c rs, l = c :: rs ∧ (c = '+' ∨ c = '-') ∧ k (some c) rs = some r) ∨
      k none l = some r := by
  cases l with
  | nil => exact Or.inr (by simpa [signOpt] using h)
  | cons c rs =>
    by_cases hc : (c == '+' || c == '-') = true
    · simp only [signOpt, hc, if_pos] at h
      rcases (orElse_eq_some_iff _ _ _).mp h with h1 | ⟨-, h2⟩
      · refine Or.inl ⟨c, rs, rfl, ?_, h1⟩
        simpa [Bool.or_eq_true, beq_iff_eq] using hc
      · exact Or.inr (by simpa using h2)
    · have hc' : (c == '+' || c == '-') = false := Bool.eq_false_iff.mpr (fun he => hc he)
      simp only [signOpt, hc', Bool.false_eq_true, if_neg, not_false_iff] at h
      exact Or.inr h

theorem signCh_sound {α : Type} (k : Char → List Char → Option α) (r : α)
    (l : List Char) (h : signCh l k = some r) :
    ∃ c rs, l = c :: rs ∧ (c = '+' ∨ c = '-') ∧ k c rs = some r := by
  cases l with
  | nil => simp [signCh] at h
  | cons c rs =>
    by_cases hc : (c == '+' || c == '-') = true
    · simp only [signCh, hc, if_pos] at h
      exact ⟨c, rs, rfl, by simpa [Bool.or_eq_true, beq_iff_eq] using hc, h⟩
    · have hc' : (c == '+' || c == '-') = false := Bool.eq_false_iff.mpr (fun he => hc he)
      simp [signCh, hc'] at h

/-! Soundness of the two alternation branches: a successful match decomposes
the whole input into the grammar's parts. -/

theorem contA_sound {g1 G1 : Option Char} {g2 g3 : List Char} (l1 : List Char)
    (h : contA G1 l1 = some (g1, g2, g3)) :
    g1 = G1 ∧ ∃ w trail : List Char,
      g2 ≠ [] ∧ (∀ c ∈ g2, c.isDigit = true) ∧
      w ≠ [] ∧ (∀ c ∈ w, isWs c = true) ∧
      g3 ≠ [] ∧ (∀ c ∈ g3, isDot c = true) ∧
      (∀ c ∈ trail, isWs c = true) ∧
      l1 = g2 ++ w ++ g3 ++ trail := by
  unfold contA at h
  obtain ⟨d, rest2, hl1, hdne, hdig, h2⟩ := plusG_sound _ _ _ _ h
  obtain ⟨w, rest3, hrest2, hwne, hws, h3⟩ := plusG_sound _ _ _ _ h2
  obtain ⟨g, rest4, hrest3, hgne, hdot, h4⟩ := plusG_sound _ _ _ _ h3
  obtain ⟨trail, rest5, hrest4, htrail, h5⟩ := starG_sound _ _ _ _ _ h4
  cases rest5 with
  | cons c cs => simp at h5
  | nil =>
    simp only [List.isEmpty_nil, if_pos] at h5
    obtain ⟨hG1, hd, hg⟩ := by simpa using h5
    subst hG1 hd hg
    refine ⟨rfl, w, trail, hdne, hdig, hwne, hws, hgne, hdot, htrail, ?_⟩
    rw [hl1, hrest2, hrest3, hrest4]
    simp [List.append_assoc]

theorem matchA_sound {g1 : Option Char} {g2 g3 : List Char} (l : List Char)
    (h : matchA l = some (g1, g2, g3)) :
    ∃ sgn w trail : List Char,
      (sgn = [] ∨ sgn = ['+'] ∨ sgn = ['-']) ∧
      g2 ≠ [] ∧ (∀ c ∈ g2, c.isDigit = true) ∧
      w ≠ [] ∧ (∀ c ∈ w, isWs c = true) ∧
      g3 ≠ [] ∧ (∀ c ∈ g3, isDot c = true) ∧
      (∀ c ∈ trail, isWs c = true) ∧
      l = sgn ++ g2 ++ w ++ g3 ++ trail := by
  unfold matchA at h
  rcases signOpt_sound _ _ _ h with ⟨c, rs, rfl, hcsign, h1⟩ | h1
  · obtain ⟨-, w, trail, hdne, hdig, hwne, hws, hgne, hdot, htrail, hrs⟩ := contA_sound rs h1
    refine ⟨[c], w, trail, ?_, hdne, hdig, hwne, hws, hgne, hdot, htrail, by simp [hrs]⟩
    rcases hcsign with rfl | rfl
    · exact Or.inr (Or.inl rfl)
    · exact Or.inr (Or.inr rfl)
  · obtain ⟨-, w, trail, hdne, hdig, hwne, hws, hgne, hdot, htrail, hl⟩ := contA_sound l h1
    exact ⟨[], w, trail, Or.inl rfl, hdne, hdig, hwne, hws, hgne, hdot, htrail, by simp [hl]⟩

theorem contB_sound {g4 G4 : List Char} {g5 : Char} {g6 : List Char} (l1 : List Char)
    (h : contB G4 l1 = some (g4, g5, g6)) :
    g4 = G4 ∧ ∃ w trail : List Char,
      w ≠ [] ∧ (∀ c ∈ w, isWs c = true) ∧
      (g5 = '+' ∨ g5 = '-') ∧
      g6 ≠ [] ∧ (∀ c ∈ g6, c.isDigit = true) ∧
      (∀ c ∈ trail, isWs c = true) ∧
      l1 = w ++ g5 :: (g6 ++ trail) := by
  unfold contB at h
  obtain ⟨w, rest2, hl1, hwne, hws, h2⟩ := plusG_sound _ _ _ _ h
  obtain ⟨sc, rest3, hrest2, hsc, h3⟩ := signCh_sound _ _ _ h2
  obtain ⟨d, rest4, hrest3, hdne, hdig, h4⟩ := plusG_sound _ _ _ _ h3
  obtain ⟨trail, rest5, hrest4, htrail, h5⟩ := starG_sound _ _ _ _ _ h4
  cases rest5 with
  | cons c cs => simp at h5
  | nil =>
    simp only [List.isEmpty_nil, if_pos] at h5
    obtain ⟨hG4, hscr, hd⟩ := by simpa using h5
    subst hG4 hscr hd
    refine ⟨rfl, w, trail, hwne, hws, hsc, hdne, hdig, htrail, ?_⟩
    rw [hl1, hrest2, hrest3, hrest4]
    simp [List.append_assoc]

theorem matchB_sound {g4 : List Char} {g5 : Char} {g6 : List Char} (l : List Char)
    (h : matchB l = some (g4, g5, g6)) :
    ∃ w trail : List Char,
      g4 ≠ [] ∧ (∀ c ∈ g4, isDot c = true) ∧
      w ≠ [] ∧ (∀ c ∈ w, isWs c = true) ∧
      (g5 = '+' ∨ g5 = '-') ∧
      g6 ≠ [] ∧ (∀ c ∈ g6, c.isDigit = true) ∧
      (∀ c ∈ trail, isWs c = true) ∧
      l = g4 ++ w ++ g5 :: (g6 ++ trail) := by
  unfold matchB dotPlusL at h
  obtain ⟨g, rest1, hl, hgne, hdot, h1⟩ := plusL_sound _ _ _ _ _ h
  obtain ⟨hg4, w, trail, hwne, hws, hsc, hdne, hdig, htrail, hrest1⟩ := contB_sound rest1 h1
  subst hg4
  refine ⟨w, trail, hgne, hdot, hwne, hws, hsc, hdne, hdig, htrail, ?_⟩
  rw [hl, hrest1]
  simp

/-! Putting the anchored pattern together on trimmed input. -/

theorem matchPattern_of_headNot {l : List Char} (h : HeadNot isWs l) :
    matchPattern l =
      ((matchA l).map (fun g => MatchGroups.amountFirst g.1 g.2.1 g.2.2)).orElse
        (fun _ => (matchB l).map (fun g => MatchGroups.labelFirst g.1 g.2.1 g.2.2)) := by
  cases l with
  | nil => rfl
  | cons c rs =>
    have hc : isWs c = false := h
    unfold matchPattern wsStar
    rw [starG_cons, if_neg]
    simp [hc]

/-- A whitespace suffix of a list with no trailing whitespace is empty. -/
theorem allWs_suffix_nil {l X trail : List Char} (hl : l = X ++ trail)
    (hws : ∀ c ∈ trail, isWs c = true) (h : HeadNot isWs l.reverse) : trail = [] := by
  cases htr : trail.reverse with
  | nil => simpa using congrArg List.reverse htr
  | cons c cs =>
    have hrev : l.reverse = c :: (cs ++ X.reverse) := by
      rw [hl, List.reverse_append, htr]
      rfl
    rw [hrev] at h
    have hc : c ∈ trail := List.mem_reverse.mp (htr ▸ List.mem_cons_self c cs)
    have : isWs c = false := h
    simp [hws c hc] at this

/-! Constructor-level equations for the remaining pieces. -/

theorem plusG_cons {α : Type} (p : Char → Bool) (k : List Char → List Char → Option α)
    (c : Char) (rs : List Char) :
    plusG p (c :: rs) k = if p c then starG p [c] rs k else none := rfl

theorem plusL_cons {α : Type} (p : Char → Bool) (k : List Char → List Char → Option α)
    (acc : List Char) (c : Char) (rs : List Char) :
    plusL p acc (c :: rs) k =
      if p c then (k (acc ++ [c]) rs).orElse (fun _ => plusL p (acc ++ [c]) rs k)
      else none := rfl

theorem signOpt_cons {α : Type} (k : Option Char → List Char → Option α)
    (c : Char) (rs : List Char) :
    signOpt (c :: rs) k =
      if c == '+' || c == '-' then (k (some c) rs).orElse (fun _ => k none (c :: rs))
      else k none (c :: rs) := rfl

theorem signCh_cons {α : Type} (k : Char → List Char → Option α)
    (c : Char) (rs : List Char) :
    signCh (c :: rs) k = if c == '+' || c == '-' then k c rs else none := rfl

/-- A non-empty list with a whitespace-free head survives trailing trim. -/
theorem trimR_ne_nil {l : List Char} (hne : l ≠ []) (hhead : HeadNot isWs l) :
    trimR l ≠ [] := by
  intro h0
  obtain ⟨z, hz, hws⟩ := trimR_decomp l
  rw [h0, List.nil_append] at hz
  cases l with
  | nil => exact hne rfl
  | cons c rs =>
    have hc : isWs c = false := hhead
    have : c ∈ z := by rw [← hz]; exact List.mem_cons_self c rs
    simp [hws c this] at hc

/-- The character list of an optional sign group. -/
def sgnList : Option Char → List Char
  | none => []
  | some c => [c]

/-! Completeness of the amount-first branch on a well-formed amount-first
line whose label starts with a non-whitespace character. -/

theorem contA_complete (G1 : Option Char) (ds lbl : List Char)
    (hds : ds ≠ []) (hdig : ∀ c ∈ ds, c.isDigit = true)
    (hlbl : lbl ≠ []) (hdot : ∀ c ∈ lbl, isDot c = true)
    (hhead : HeadNot isWs lbl) :
    contA G1 (ds ++ ' ' :: lbl) = some (G1, ds, lbl) := by
  have h4 : dotPlusG lbl
      (fun g3 l4 => wsStar [] l4 (fun _ l5 =>
        if l5.isEmpty then some (G1, ds, g3) else none)) = some (G1, ds, lbl) := by
    have h := plusG_of isDot
      (fun g3 l4 => wsStar [] l4 (fun _ l5 =>
        if l5.isEmpty then some (G1, ds, g3) else none))
      (G1, ds, lbl) lbl [] hdot hlbl trivial rfl
    simpa using h
  have h3 : wsPlus (' ' :: lbl)
      (fun _ l3 => dotPlusG l3 (fun g3 l4 => wsStar [] l4 (fun _ l5 =>
        if l5.isEmpty then some (G1, ds, g3) else none))) = some (G1, ds, lbl) := by
    have h := plusG_of isWs
      (fun _ l3 => dotPlusG l3 (fun g3 l4 => wsStar [] l4 (fun _ l5 =>
        if l5.isEmpty then some (G1, ds, g3) else none)))
      (G1, ds, lbl) [' '] lbl
      (by intro c hc; simp at hc; subst hc; decide) (by simp) hhead h4
    simpa using h
  unfold contA
  exact plusG_of (fun c => c.isDigit) _ (G1, ds, lbl) ds (' ' :: lbl) hdig hds
    (show (' '.isDigit = false) by decide) h3

theorem matchA_complete (sgn : Option Char)
    (hsgn : sgn = none ∨ sgn = some '+' ∨ sgn = some '-')
    (ds lbl : List Char)
    (hds : ds ≠ []) (hdig : ∀ c ∈ ds, c.isDigit = true)
    (hlbl : lbl ≠ []) (hdot : ∀ c ∈ lbl, isDot c = true)
    (hhead : HeadNot isWs lbl) :
    matchA (sgnList sgn ++ ds ++ ' ' :: lbl) = some (sgn, ds, lbl) := by
  have hcont := contA_complete sgn ds lbl hds hdig hlbl hdot hhead
  rcases hsgn with rfl | rfl | rfl
  · cases ds with
    | nil => exact absurd rfl hds
    | cons d ds' =>
      have hdsign : (d == '+' || d == '-') = false :=
        not_sign_of_isDigit (hdig d (List.mem_cons_self d ds'))
      unfold matchA
      show signOpt (d :: (ds' ++ ' ' :: lbl)) contA = some (none, d :: ds', lbl)
      rw [signOpt_cons, if_neg (by simp [hdsign])]
      exact hcont
  · unfold matchA
    show signOpt ('+' :: (ds ++ ' ' :: lbl)) contA = some (some '+', ds, lbl)
    rw [signOpt_cons, if_pos (by decide), hcont]
    rfl
  · unfold matchA
    show signOpt ('-' :: (ds ++ ' ' :: lbl)) contA = some (some '-', ds, lbl)
    rw [signOpt_cons, if_pos (by decide), hcont]
    rfl

/-! Completeness of the label-first branch.  The lazy label group stops at
the first position from which the rest of the line reads as whitespace, a
sign and digits running to the end. -/

theorem contB_success (sc : Char) (hsc : sc = '+' ∨ sc = '-') (ds : List Char)
    (hds : ds ≠ []) (hdig : ∀ c ∈ ds, c.isDigit = true)
    (g4 w : List Char) (hw : ∀ c ∈ w, isWs c = true) :
    contB g4 (w ++ ' ' :: sc :: ds) = some (g4, sc, ds) := by
  have hcond : (sc == '+' || sc == '-') = true := by
    rcases hsc with rfl | rfl <;> rfl
  have h4 : digitsPlus ds
      (fun g6 l4 => wsStar [] l4 (fun _ l5 =>
        if l5.isEmpty then some (g4, sc, g6) else none)) = some (g4, sc, ds) := by
    have h := plusG_of (fun c => c.isDigit)
      (fun g6 l4 => wsStar [] l4 (fun _ l5 =>
        if l5.isEmpty then some (g4, sc, g6) else none))
      (g4, sc, ds) ds [] hdig hds trivial rfl
    simpa using h
  have h3 : signCh (sc :: ds)
      (fun g5 l3 => digitsPlus l3 (fun g6 l4 => wsStar [] l4 (fun _ l5 =>
        if l5.isEmpty then some (g4, g5, g6) else none))) = some (g4, sc, ds) := by
    rw [signCh_cons, if_pos hcond]
    exact h4
  have hall : ∀ c ∈ w ++ [' '], isWs c = true := by
    intro c hc
    rcases List.mem_append.mp hc with hc' | hc'
    · exact hw c hc'
    · simp at hc'; subst hc'; rfl
  have h2 : wsPlus ((w ++ [' ']) ++ sc :: ds)
      (fun _ l2 => signCh l2 (fun g5 l3 => digitsPlus l3 (fun g6 l4 =>
        wsStar [] l4 (fun _ l5 =>
          if l5.isEmpty then some (g4, g5, g6) else none)))) = some (g4, sc, ds) := by
    exact plusG_of isWs _ (g4, sc, ds) (w ++ [' ']) (sc :: ds) hall (by simp)
      (isWs_false_of_sign hsc) h3
  unfold contB
  have hshape : w ++ ' ' :: sc :: ds = (w ++ [' ']) ++ sc :: ds := by simp
  rw [hshape]
  exact h2

theorem contB_fail (g4 : List Char) (rem tail : List Char)
    (hx : ∃ x ∈ rem, isWs x = false)
    (hsign : ∀ c ∈ rem, (c == '+' || c == '-') = false) :
    contB g4 (rem ++ tail) = none := by
  obtain ⟨x, hxmem, hxws⟩ := hx
  have hdne : rem.dropWhile (fun c => isWs c) ≠ [] := dropWhile_ne_nil_of_mem hxmem hxws
  cases hdrop : rem.dropWhile (fun c => isWs c) with
  | nil => exact absurd hdrop hdne
  | cons c2 r2 =>
    have hc2ws : isWs c2 = false := by
      have := headNot_dropWhile (fun c => isWs c) rem
      rw [hdrop] at this
      exact this
    have hc2mem : c2 ∈ rem := mem_of_dropWhile (hdrop ▸ List.mem_cons_self c2 r2)
    have hc2sign : (c2 == '+' || c2 == '-') = false := hsign c2 hc2mem
    have hsplit : rem = rem.takeWhile (fun c => isWs c) ++ c2 :: r2 := by
      conv_lhs => rw [← takeWhile_append_dropWhile (fun c => isWs c) rem]
      rw [hdrop]
    cases htake : rem.takeWhile (fun c => isWs c) with
    | nil =>
      rw [htake, List.nil_append] at hsplit
      rw [hsplit]
      unfold contB wsPlus
      rw [List.cons_append, plusG_cons, if_neg (by simp [hc2ws])]
    | cons cw w0 =>
      have hwall := @all_takeWhile (fun c => isWs c) rem
      rw [htake] at hwall
      have hcw : isWs cw = true := hwall cw (List.mem_cons_self cw w0)
      have hw0 : ∀ c ∈ w0, isWs c = true :=
        fun c hc => hwall c (List.mem_cons_of_mem cw hc)
      rw [hsplit, htake]
      unfold contB wsPlus
      have hshape : ((cw :: w0) ++ c2 :: r2) ++ tail = cw :: (w0 ++ c2 :: (r2 ++ tail)) := by
        simp
      rw [hshape, plusG_cons, if_pos hcw]
      exact starG_sign_fail _ w0 [cw] c2 (r2 ++ tail) hw0 hc2ws hc2sign

theorem matchB_complete (sc : Char) (hsc : sc = '+' ∨ sc = '-') (ds : List Char)
    (hds : ds ≠ []) (hdig : ∀ c ∈ ds, c.isDigit = true) :
    ∀ (rem acc : List Char), (∃ x ∈ rem, isWs x = false) →
      (∀ c ∈ rem, isDot c = true) →
      (∀ c ∈ rem, (c == '+' || c == '-') = false) →
      plusL isDot acc (rem ++ ' ' :: sc :: ds) contB = some (acc ++ trimR rem, sc, ds) := by
  intro rem
  induction rem with
  | nil =>
    intro acc hx _ _
    obtain ⟨x, hxmem, -⟩ := hx
    cases hxmem
  | cons c rem' ih =>
    intro acc hx hdot hsign
    have hcdot : isDot c = true := hdot c (List.mem_cons_self c rem')
    rw [List.cons_append, plusL_cons, if_pos hcdot]
    by_cases hrem' : ∃ x ∈ rem', isWs x = false
    · have hfail : contB (acc ++ [c]) (rem' ++ ' ' :: sc :: ds) = none :=
        contB_fail (acc ++ [c]) rem' (' ' :: sc :: ds) hrem'
          (fun x hxm => hsign x (List.mem_cons_of_mem c hxm))
      rw [hfail, orElse_of_none]
      have hrec := ih (acc ++ [c]) hrem'
        (fun x hxm => hdot x (List.mem_cons_of_mem c hxm))
        (fun x hxm => hsign x (List.mem_cons_of_mem c hxm))
      rw [hrec]
      have htr : trimR (c :: rem') = c :: trimR rem' := by
        obtain ⟨x, hxm, hxws⟩ := hrem'
        have := trimR_append_of_mem (a := [c]) hxm hxws
        simpa using this
      rw [htr]
      simp
    · have hallws : ∀ x ∈ rem', isWs x = true := by
        intro x hxm
        by_cases hxw : isWs x = true
        · exact hxw
        · exact absurd ⟨x, hxm, Bool.eq_false_iff.mpr (fun he => hxw he)⟩ hrem'
      have hcws : isWs c = false := by
        obtain ⟨x, hxm, hxws⟩ := hx
        rcases List.mem_cons.mp hxm with rfl | hxm'
        · exact hxws
        · simp [hallws x hxm'] at hxws
      have hsucc := contB_success sc hsc ds hds hdig (acc ++ [c]) rem' hallws
      rw [hsucc]
      have htr : trimR (c :: rem') = [c] := by
        have h1 : trimR ([c] ++ rem') = trimR [c] := trimR_append_of_all hallws
        have h2 : trimR [c] = [c] := trimR_eq_self (by exact hcws)
        simpa [h2] using h1
      rw [htr]
      simp

/-! Assembling full runs of `parseMessage` on well-formed lines. -/

theorem data_mk (l : List Char) : (String.mk l).data = l := rfl

theorem headNot_sgnDs (sgn : Option Char)
    (hsgn : sgn = none ∨ sgn = some '+' ∨ sgn = some '-')
    (ds : List Char) (hds : ds ≠ []) (hdig : ∀ c ∈ ds, c.isDigit = true)
    (tail : List Char) : HeadNot isWs (sgnList sgn ++ ds ++ tail) := by
  rcases hsgn with rfl | rfl | rfl
  · cases ds with
    | nil => exact absurd rfl hds
    | cons d ds' => exact isWs_false_of_isDigit (hdig d (List.mem_cons_self d ds'))
  · exact (by decide : isWs '+' = false)
  · exact (by decide : isWs '-' = false)

theorem headNot_rev_app (X : List Char) {ds : List Char} (hne : ds ≠ [])
    (hnw : ∀ c ∈ ds, isWs c = false) : HeadNot isWs (X ++ ds).reverse := by
  rw [List.reverse_append]
  cases hrev : ds.reverse with
  | nil => exact absurd (by simpa using congrArg List.reverse hrev) hne
  | cons d tail =>
    have hd : d ∈ ds := List.mem_reverse.mp (hrev ▸ List.mem_cons_self d tail)
    exact hnw d hd

/-- On any well-formed amount-first line — optional sign, digits, a space and
a label starting with a non-whitespace character — `parseMessage` returns
the trimmed label, the written (or defaulted) sign, and the digit value as
the unsigned amount. -/
theorem parseMessage_amount_first (sgn : Option Char)
    (hsgn : sgn = none ∨ sgn = some '+' ∨ sgn = some '-')
    (ds lbl : List Char)
    (hds : ds ≠ []) (hdig : ∀ c ∈ ds, c.isDigit = true)
    (hlbl : lbl ≠ []) (hdot : ∀ c ∈ lbl, isDot c = true)
    (hhead : HeadNot isWs lbl) :
    parseMessage (String.mk (sgnList sgn ++ ds ++ ' ' :: lbl)) =
      some { label := jsTrim (String.mk lbl)
             sign := if sgn = some '-' then Sign.negative else Sign.positive
             amount := natOfDigits ds } := by
  have hmem : ∃ x ∈ lbl, isWs x = false := by
    cases lbl with
    | nil => exact absurd rfl hlbl
    | cons c rest => exact ⟨c, List.mem_cons_self c rest, hhead⟩
  obtain ⟨x0, hx0mem, hx0⟩ := hmem
  have htrim : jsTrimL (sgnList sgn ++ ds ++ ' ' :: lbl) =
      sgnList sgn ++ ds ++ ' ' :: trimR lbl := by
    unfold jsTrimL
    rw [trimL_eq_self (headNot_sgnDs sgn hsgn ds hds hdig (' ' :: lbl))]
    have hshape : sgnList sgn ++ ds ++ ' ' :: lbl = (sgnList sgn ++ ds ++ [' ']) ++ lbl := by
      simp
    rw [hshape, trimR_append_of_mem hx0mem hx0]
    simp
  have hlbl2ne : trimR lbl ≠ [] := trimR_ne_nil hlbl hhead
  have hlbl2dot : ∀ c ∈ trimR lbl, isDot c = true := fun c hc => hdot c (mem_trimR hc)
  have hlbl2head : HeadNot isWs (trimR lbl) := headNot_trimR hhead
  have hmatch := matchA_complete sgn hsgn ds (trimR lbl) hds hdig hlbl2ne hlbl2dot hlbl2head
  unfold parseMessage
  have hdata : (jsTrim (String.mk (sgnList sgn ++ ds ++ ' ' :: lbl))).data =
      sgnList sgn ++ ds ++ ' ' :: trimR lbl := htrim
  rw [hdata, matchPattern_of_headNot (headNot_sgnDs sgn hsgn ds hds hdig (' ' :: trimR lbl)),
    hmatch]
  show some (buildAmountFirst sgn ds (trimR lbl)) = _
  have hlabel : jsTrim (String.mk (trimR lbl)) = jsTrim (String.mk lbl) := by
    show String.mk (jsTrimL (trimR lbl)) = String.mk (jsTrimL lbl)
    rw [jsTrimL_eq_self hlbl2head (headNot_reverse_trimR lbl)]
    unfold jsTrimL
    rw [trimL_eq_self hhead]
  have hsign : (if sgn.getD '+' = '-' then Sign.negative else Sign.positive) =
      (if sgn = some '-' then Sign.negative else Sign.positive) := by
    rcases hsgn with rfl | rfl | rfl <;> simp
  unfold buildAmountFirst
  rw [hlabel, hsign]

/-- On any well-formed label-first line — a label free of sign characters,
not starting with whitespace or a digit, then a space, a sign and digits —
`parseMessage` returns the trimmed label, the written sign, and the digit
value as the unsigned amount. -/
theorem parseMessage_label_first (lbl : List Char) (hlbl : lbl ≠ [])
    (hdot : ∀ c ∈ lbl, isDot c = true) (hhead : HeadNot isWs lbl)
    (hheaddig : HeadNot (fun c => c.isDigit) lbl)
    (hsignfree : ∀ c ∈ lbl, (c == '+' || c == '-') = false)
    (sc : Char) (hsc : sc = '+' ∨ sc = '-') (ds : List Char)
    (hds : ds ≠ []) (hdig : ∀ c ∈ ds, c.isDigit = true) :
    parseMessage (String.mk (lbl ++ ' ' :: sc :: ds)) =
      some { label := jsTrim (String.mk lbl)
             sign := if sc = '+' then Sign.positive else Sign.negative
             amount := natOfDigits ds } := by
  have hheadfull : HeadNot isWs (lbl ++ ' ' :: sc :: ds) := by
    cases lbl with
    | nil => exact absurd rfl hlbl
    | cons c rest => exact hhead
  have hrevfull : HeadNot isWs (lbl ++ ' ' :: sc :: ds).reverse := by
    have hshape : lbl ++ ' ' :: sc :: ds = (lbl ++ [' ', sc]) ++ ds := by simp
    rw [hshape]
    exact headNot_rev_app (lbl ++ [' ', sc]) hds
      (fun c hc => isWs_false_of_isDigit (hdig c hc))
  have htrim : jsTrimL (lbl ++ ' ' :: sc :: ds) = lbl ++ ' ' :: sc :: ds :=
    jsTrimL_eq_self hheadfull hrevfull
  have hAnone : matchA (lbl ++ ' ' :: sc :: ds) = none := by
    cases lbl with
    | nil => exact absurd rfl hlbl
    | cons c0 rest =>
      have hc0sign : (c0 == '+' || c0 == '-') = false :=
        hsignfree c0 (List.mem_cons_self c0 rest)
      have hc0dig : c0.isDigit = false := hheaddig
      unfold matchA
      rw [List.cons_append, signOpt_cons, if_neg (by simp [hc0sign])]
      unfold contA digitsPlus
      rw [plusG_cons, if_neg (by simp [hc0dig])]
  have hmemlbl : ∃ x ∈ lbl, isWs x = false := by
    cases lbl with
    | nil => exact absurd rfl hlbl
    | cons c rest => exact ⟨c, List.mem_cons_self c rest, hhead⟩
  have hB : matchB (lbl ++ ' ' :: sc :: ds) = some (trimR lbl, sc, ds) := by
    unfold matchB dotPlusL
    have := matchB_complete sc hsc ds hds hdig lbl [] hmemlbl hdot hsignfree
    simpa using this
  unfold parseMessage
  have hdata : (jsTrim (String.mk (lbl ++ ' ' :: sc :: ds))).data =
      lbl ++ ' ' :: sc :: ds := htrim
  rw [hdata, matchPattern_of_headNot hheadfull, hAnone, hB]
  show some (buildLabelFirst (trimR lbl) sc ds) = _
  have hlabel : jsTrim (String.mk (trimR lbl)) = jsTrim (String.mk lbl) := by
    show String.mk (jsTrimL (trimR lbl)) = String.mk (jsTrimL lbl)
    rw [jsTrimL_eq_self (headNot_trimR hhead) (headNot_reverse_trimR lbl)]
    unfold jsTrimL
    rw [trimL_eq_self hhead]
  unfold buildLabelFirst
  rw [hlabel]

/-- Whenever `parseMessage` accepts, the trimmed input decomposes entirely
along one of the two grammars of the specification. -/
theorem parseMessage_grammar_sound (s : String) (p : ParsedTransaction)
    (h : parseMessage s = some p) :
    AmountFirstGrammar (jsTrim s).data ∨ LabelFirstGrammar (jsTrim s).data := by
  have hhead : HeadNot isWs (jsTrim s).data := headNot_jsTrimL s.data
  have hrev : HeadNot isWs (jsTrim s).data.reverse := headNot_reverse_jsTrimL s.data
  unfold parseMessage at h
  cases hmp : matchPattern (jsTrim s).data with
  | none => rw [hmp] at h; cases h
  | some g =>
    rw [matchPattern_of_headNot hhead] at hmp
    rcases (orElse_eq_some_iff _ _ _).mp hmp with hA | ⟨-, hB⟩
    · obtain ⟨⟨a1, a2, a3⟩, hAt, -⟩ := Option.map_eq_some'.mp hA
      obtain ⟨sgn, w, trail, hsgn, hdne, hdig, hwne, hws, hgne, hdot, htrail, hl⟩ :=
        matchA_sound _ hAt
      left
      exact ⟨sgn, a2, w, a3 ++ trail, hsgn, hdne, hdig, hwne, hws,
        (by cases a3 with | nil => exact absurd rfl hgne | cons c cs => simp),
        hl.trans (List.append_assoc _ _ _)⟩
    · obtain ⟨⟨b4, b5, b6⟩, hBt, -⟩ := Option.map_eq_some'.mp hB
      obtain ⟨w, trail, hgne, hdot, hwne, hws, hsc, hdne, hdig, htrail, hl⟩ :=
        matchB_sound _ hBt
      have htrail0 : trail = [] := by
        refine allWs_suffix_nil (X := b4 ++ w ++ b5 :: b6) ?_ htrail hrev
        rw [hl]
        simp
      right
      refine ⟨b4, w, b5, b6, hgne, hwne, hws, hsc, hdne, hdig, ?_⟩
      rw [hl, htrail0]
      simp

/-! Association-list and map-operation facts. -/

theorem lookup_alSet_self {κ ν : Type} [BEq κ] [LawfulBEq κ]
    (m : List (κ × ν)) (k : κ) (v : ν) : (alSet m k v).lookup k = some v := by
  induction m with
  | nil => simp [alSet, List.lookup]
  | cons q rest ih =>
    obtain ⟨k', v'⟩ := q
    by_cases h : k' = k
    · subst h
      simp [alSet, List.lookup]
    · have hb : (k' == k) = false := by simp [h]
      have hb' : (k == k') = false := by simp [Ne.symm h]
      simp [alSet, hb, List.lookup, hb', ih]

theorem lookup_alSet_ne {κ ν : Type} [BEq κ] [LawfulBEq κ]
    (m : List (κ × ν)) (k k' : κ) (v : ν) (h : k' ≠ k) :
    (alSet m k v).lookup k' = m.lookup k' := by
  have hb0 : (k' == k) = false := by simp [h]
  induction m with
  | nil => simp [alSet, List.lookup, hb0]
  | cons q rest ih =>
    obtain ⟨k0, v0⟩ := q
    by_cases h0 : k0 = k
    · subst h0
      have hb : (k' == k0) = false := by simp [h]
      simp [alSet, List.lookup, hb]
    · have hb : (k0 == k) = false := by simp [h0]
      simp [alSet, hb, List.lookup, ih]

theorem lookup_alDelete_self {κ ν : Type} [BEq κ] [LawfulBEq κ]
    (m : List (κ × ν)) (k : κ) : (alDelete m k).lookup k = none := by
  induction m with
  | nil => simp [alDelete, List.lookup]
  | cons q rest ih =>
    obtain ⟨k0, v0⟩ := q
    by_cases h0 : k0 = k
    · subst h0
      simpa [alDelete, List.filter] using ih
    · have hb : (k0 == k) = false := by simp [h0]
      have hb' : (k == k0) = false := by simp [Ne.symm h0]
      simpa [alDelete, List.filter, hb, List.lookup, hb'] using ih

/-! Sum of amounts: the `reduce` of the code equals the primitive-recursive
specification sum. -/

theorem foldl_add_entries (l : List FinancialEntry) :
    ∀ a : Int, l.foldl (fun total e => total + e.amount) a =
      a + specSum (l.map (fun e => e.amount)) := by
  induction l with
  | nil => intro a; simp [specSum]
  | cons e rest ih =>
    intro a
    simp only [List.foldl, List.map, specSum, ih]
    ring

theorem foldl_add_tx (l : List Transaction) :
    ∀ a : Int, l.foldl (fun sum t => sum + t.amount) a =
      a + specSum (l.map Transaction.amount) := by
  induction l with
  | nil => intro a; simp [specSum]
  | cons t rest ih =>
    intro a
    simp only [List.foldl, List.map, specSum, ih]
    ring

/-- The balance of any receipt in any state is the specification sum of the
amounts of its current entries. -/
theorem calcTotal_eq_specSum (st : MemState) (name : String) :
    calculateReceiptTotal st name = specSum ((entriesOf st name).map (fun e => e.amount)) := by
  unfold calculateReceiptTotal entriesOf
  cases st.receipts.lookup name with
  | none => simp [specSum]
  | some r => simpa using foldl_add_entries r.entries 0

/-! String facts. -/

theorem mk_data (s : String) : String.mk s.data = s := rfl

theorem string_data_append (s t : String) : (s ++ t).data = s.data ++ t.data := rfl

theorem string_eq_of_data {s t : String} (h : s.data = t.data) : s = t :=
  congrArg String.mk h

theorem str_append_assoc (a b c : String) : (a ++ b) ++ c = a ++ (b ++ c) :=
  string_eq_of_data (by simp [string_data_append])

theorem string_ne_of_head {s t : String} (h : s.data.head? ≠ t.data.head?) : s ≠ t :=
  fun he => h (by rw [he])

theorem head_append_left {s : String} (t : String) {c : Char}
    (h : s.data.head? = some c) : (s ++ t).data.head? = some c := by
  rw [string_data_append]
  cases hd : s.data with
  | nil => rw [hd] at h; cases h
  | cons c0 rest =>
    rw [hd] at h
    simpa using h

/-! Splitting on newlines and joining with newlines are mutually inverse on
newline-free lines. -/

/-- Joining character-list lines with `'\n'`. -/
def joinNlL : List (List Char) → List Char
  | [] => []
  | [l] => l
  | l :: ls => l ++ '\n' :: joinNlL ls

/-- Joining string lines with `"\n"` (the inverse of JS `split("\n")`). -/
def joinNl (ls : List String) : String :=
  String.mk (joinNlL (ls.map String.data))

theorem splitNlL_cons (c : Char) (rs : List Char) :
    splitNlL (c :: rs) = if c = '\n' then [] :: splitNlL rs
      else match splitNlL rs with
        | [] => [[c]]
        | h :: t => (c :: h) :: t := rfl

theorem splitNlL_no_nl {l : List Char} (h : '\n' ∉ l) : splitNlL l = [l] := by
  induction l with
  | nil => rfl
  | cons c rs ih =>
    have hc : c ≠ '\n' := fun he => h (he ▸ List.mem_cons_self c rs)
    have hrs : '\n' ∉ rs := fun hm => h (List.mem_cons_of_mem c hm)
    simp [splitNlL, hc, ih hrs]

theorem splitNlL_append {l : List Char} (rest : List Char) (h : '\n' ∉ l) :
    splitNlL (l ++ '\n' :: rest) = l :: splitNlL rest := by
  induction l with
  | nil => simp [splitNlL]
  | cons c ls ih =>
    have hc : c ≠ '\n' := fun he => h (he ▸ List.mem_cons_self c ls)
    have hls : '\n' ∉ ls := fun hm => h (List.mem_cons_of_mem c hm)
    rw [List.cons_append, splitNlL_cons, if_neg hc, ih hls]

theorem splitNl_joinNl : ∀ (Ls : List (List Char)), Ls ≠ [] →
    (∀ l ∈ Ls, '\n' ∉ l) → splitNlL (joinNlL Ls) = Ls := by
  intro Ls
  induction Ls with
  | nil => intro h; exact absurd rfl h
  | cons l ls ih =>
    intro _ h
    cases ls with
    | nil => exact splitNlL_no_nl (h l (List.mem_cons_self l []))
    | cons l2 ls' =>
      have hjoin : joinNlL (l :: l2 :: ls') = l ++ '\n' :: joinNlL (l2 :: ls') := rfl
      rw [hjoin, splitNlL_append _ (h l (List.mem_cons_self l (l2 :: ls')))]
      rw [ih (by simp) (fun x hx => h x (List.mem_cons_of_mem l hx))]

/-! Rendering equalities for the report formatter. -/

theorem entryLine_eq (t : Transaction) :
    ((if 0 ≤ t.amount then "💰" else "💸") ++ " " ++
      (if 0 ≤ t.amount then "+" else "-") ++ toLocaleStr t.amount.natAbs ++
      "  \"" ++ t.label ++ "\"") = specEntryLine t := by
  unfold specEntryLine specIndicator specSigned
  by_cases h : (0 : Int) ≤ t.amount
  · simp only [h, if_true, str_append_assoc]
  · simp only [h, if_false, str_append_assoc]

/-! Refuting the grammars on concrete rejected inputs. -/

theorem not_AF_of_no_digit {l : List Char} (h : ∀ c ∈ l, c.isDigit = false) :
    ¬ AmountFirstGrammar l := by
  rintro ⟨sgn, ds, w, lbl, hsgn, hds, hdig, -, -, -, rfl⟩
  cases ds with
  | nil => exact hds rfl
  | cons d ds' =>
    have hdmem : d ∈ sgn ++ (d :: ds') ++ w ++ lbl := by simp
    have := h d hdmem
    simp [hdig d (List.mem_cons_self d ds')] at this

theorem not_LF_of_no_digit {l : List Char} (h : ∀ c ∈ l, c.isDigit = false) :
    ¬ LabelFirstGrammar l := by
  rintro ⟨lbl, w, sc, ds, -, -, -, -, hds, hdig, rfl⟩
  cases ds with
  | nil => exact hds rfl
  | cons d ds' =>
    have hdmem : d ∈ lbl ++ w ++ sc :: d :: ds' := by simp
    have := h d hdmem
    simp [hdig d (List.mem_cons_self d ds')] at this

theorem not_AF_of_head {c : Char} {rs : List Char} (hdig : c.isDigit = false)
    (hp : c ≠ '+') (hm : c ≠ '-') : ¬ AmountFirstGrammar (c :: rs) := by
  rintro ⟨sgn, ds, w, lbl, hsgn, hds, hdigs, -, -, -, hl⟩
  rcases hsgn with rfl | rfl | rfl
  · cases ds with
    | nil => exact hds rfl
    | cons d ds' =>
      have : c = d := by simpa using congrArg List.head? hl
      subst this
      simp [hdigs c (List.mem_cons_self c ds')] at hdig
  · exact hp (by simpa using congrArg List.head? hl)
  · exact hm (by simpa using congrArg List.head? hl)

theorem not_LF_of_last {l : List Char} (h : HeadNot (fun c => c.isDigit) l.reverse) :
    ¬ LabelFirstGrammar l := by
  rintro ⟨lbl, w, sc, ds, -, -, -, -, hds, hdig, rfl⟩
  cases hrev : ds.reverse with
  | nil => exact hds (by simpa using congrArg List.reverse hrev)
  | cons d tail =>
    have hd : d ∈ ds := List.mem_reverse.mp (hrev ▸ List.mem_cons_self d tail)
    have hshape : (lbl ++ w ++ sc :: ds).reverse = d :: (tail ++ [sc] ++ (lbl ++ w).reverse) := by
      rw [List.reverse_append, List.reverse_cons, hrev]
      simp
    rw [hshape] at h
    have : d.isDigit = false := h
    simp [hdig d hd] at this

/-- Both branches of `formatResponse` start with a character other than the
clipboard marker of the "No entries yet." reply. -/
theorem formatResponse_head (st : MemState) (name : String) :
    (formatResponse st name).data.head? = some 'R' ∨
      (formatResponse st name).data.head? = some '*' := by
  unfold formatResponse
  cases st.receipts.lookup name with
  | none =>
    left
    exact head_append_left _ (head_append_left _ rfl)
  | some r =>
    right
    exact head_append_left _ (head_append_left _ (head_append_left _
      (head_append_left _ (head_append_left _ (head_append_left _
        (head_append_left _ (head_append_left _ (head_append_left _ rfl))))))))

theorem noEntriesMsg_ne_formatResponse (st : MemState) (name : String) :
    noEntriesMsg name ≠ formatResponse st name := by
  apply string_ne_of_head
  have h1 : (noEntriesMsg name).data.head? = some '📋' :=
    head_append_left _ (head_append_left _ rfl)
  rcases formatResponse_head st name with h2 | h2 <;> rw [h1, h2] <;> decide

/-! Claim theorems. -/

/-- Claim C1, amended.  The claim as stated is false: `parseMessage` does not
carry a signed amount — for `"rent -3000"` its result is
`{label := "rent", sign := negative, amount := 3000}`, the `amount` field
being the unsigned magnitude with the sign kept in the separate `sign` tag.
Amended: for every well-formed amount-first line `<sign><digits> <label>`
(sign optional, defaulting to positive) and every well-formed label-first
line `<label> <sign><digits>` (label not itself starting like an amount and
free of sign characters), `parseMessage` returns the label trimmed exactly,
the written sign, and `amount = digits` as an unsigned magnitude, so that
the signed value `sign · amount` equals `sign*digits`; the in-memory
`parseFinancialEntries`, by contrast, does return the signed amount `-3000`
for the scenario line `"rent -3000"`. -/
theorem c1_parser_signed_magnitude :
    (∀ (sgn : Option Char) (ds lbl : List Char),
       (sgn = none ∨ sgn = some '+' ∨ sgn = some '-') →
       ds ≠ [] → (∀ c ∈ ds, c.isDigit = true) →
       lbl ≠ [] → (∀ c ∈ lbl, isDot c = true) → HeadNot isWs lbl →
       parseMessage (String.mk (sgnList sgn ++ ds ++ ' ' :: lbl)) =
         some { label := jsTrim (String.mk lbl)
                sign := if sgn = some '-' then Sign.negative else Sign.positive
                amount := natOfDigits ds }) ∧
    (∀ (lbl : List Char) (sc : Char) (ds : List Char),
       lbl ≠ [] → (∀ c ∈ lbl, isDot c = true) → HeadNot isWs lbl →
       HeadNot (fun c => c.isDigit) lbl →
       (∀ c ∈ lbl, (c == '+' || c == '-') = false) →
       (sc = '+' ∨ sc = '-') → ds ≠ [] → (∀ c ∈ ds, c.isDigit = true) →
       parseMessage (String.mk (lbl ++ ' ' :: sc :: ds)) =
         some { label := jsTrim (String.mk lbl)
                sign := if sc = '+' then Sign.positive else Sign.negative
                amount := natOfDigits ds }) ∧
    parseMessage "rent -3000" =
      some { label := "rent", sign := Sign.negative, amount := 3000 } ∧
    ParsedTransaction.signedValue
      { label := "rent", sign := Sign.negative, amount := 3000 } = -3000 ∧
    parseLine "2026-02-03" "rent -3000" =
      some { description := "rent", amount := -3000, date := "2026-02-03" } := by
  refine ⟨?_, ?_, by decide, by decide, by decide⟩
  · intro sgn ds lbl hsgn hds hdig hlbl hdot hhead
    exact parseMessage_amount_first sgn hsgn ds lbl hds hdig hlbl hdot hhead
  · intro lbl sc ds hlbl hdot hhead hheaddig hsignfree hsc hds hdig
    exact parseMessage_label_first lbl hlbl hdot hhead hheaddig hsignfree sc hsc ds hds hdig

/-- Counterexample for claim C1 as stated: the result `parseMessage` returns
for `"rent -3000"` carries the amount `3000`, not `-3000`. -/
theorem c1_counterexample :
    (parseMessage "rent -3000").map ParsedTransaction.amount = some 3000 ∧
    (parseMessage "rent -3000").map (fun p => (p.amount : Int)) ≠ some (-3000 : Int) := by
  constructor <;> decide

/-- Witness for claim C1's amended theorem at the spec's scenario-2 line
`"+4000 salary"`. -/
theorem c1_witness :
    parseMessage (String.mk (sgnList (some '+') ++ ['4', '0', '0', '0'] ++
        ' ' :: ['s', 'a', 'l', 'a', 'r', 'y'])) =
      some { label := jsTrim (String.mk ['s', 'a', 'l', 'a', 'r', 'y'])
             sign := if (some '+' : Option Char) = some '-' then Sign.negative
               else Sign.positive
             amount := natOfDigits ['4', '0', '0', '0'] } :=
  c1_parser_signed_magnitude.1 (some '+') ['4', '0', '0', '0']
    ['s', 'a', 'l', 'a', 'r', 'y'] (Or.inr (Or.inl rfl)) (by decide) (by decide)
    (by decide) (by decide) (by decide)

/-- Claim C6: whenever the amount-first anchored branch matches the trimmed
line, `parseMessage` returns the amount-first interpretation of the match —
the alternation tries the amount-first branch to exhaustion first. -/
theorem c6_amount_first_precedence :
    ∀ (s : String) (g1 : Option Char) (g2 g3 : List Char),
      matchA (jsTrim s).data = some (g1, g2, g3) →
      parseMessage s = some (buildAmountFirst g1 g2 g3) := by
  intro s g1 g2 g3 h
  unfold parseMessage
  have hh : HeadNot isWs (jsTrim s).data := headNot_jsTrimL s.data
  rw [matchPattern_of_headNot hh, h]
  rfl

/-- Witness for claim C6 on the line `"100 rent -200"`, which both grammars
could interpret: the amount-first reading wins. -/
theorem c6_witness :
    matchA (jsTrim "100 rent -200").data =
      some (none, ['1', '0', '0'], ['r', 'e', 'n', 't', ' ', '-', '2', '0', '0']) ∧
    parseMessage "100 rent -200" =
      some (buildAmountFirst none ['1', '0', '0']
        ['r', 'e', 'n', 't', ' ', '-', '2', '0', '0']) :=
  ⟨by decide, c6_amount_first_precedence "100 rent -200" none _ _ (by decide)⟩

/-- Claim C3: parsing is total.  Both parsers are total functions of the
input text — `parseMessage` yields a parsed transaction or `null` (`none`)
and `parseFinancialEntries` yields a (possibly empty) entry list, never an
uncaught failure — and any string matching neither of the two grammars is
rejected by `parseMessage`. -/
theorem c3_parsing_total :
    (∀ s : String, parseMessage s = none ∨ ∃ p, parseMessage s = some p) ∧
    (∀ s : String, ¬ AmountFirstGrammar (jsTrim s).data →
       ¬ LabelFirstGrammar (jsTrim s).data → parseMessage s = none) ∧
    (∀ currentDate text : String, parseFinancialEntries currentDate text = [] ∨
       ∃ e es, parseFinancialEntries currentDate text = e :: es) := by
  refine ⟨?_, ?_, ?_⟩
  · intro s
    cases h : parseMessage s with
    | none => exact Or.inl rfl
    | some p => exact Or.inr ⟨p, rfl⟩
  · intro s hAF hLF
    cases h : parseMessage s with
    | none => rfl
    | some p =>
      rcases parseMessage_grammar_sound s p h with hg | hg
      · exact absurd hg hAF
      · exact absurd hg hLF
  · intro currentDate text
    cases h : parseFinancialEntries currentDate text with
    | nil => exact Or.inl rfl
    | cons e es => exact Or.inr ⟨e, es, rfl⟩

/-- Witness for claim C3 at the spec's scenario-5 line
`"not a transaction"`: it contains no digit, so it matches neither grammar,
and `parseMessage` rejects it. -/
theorem c3_witness : parseMessage "not a transaction" = none :=
  c3_parsing_total.2.1 "not a transaction"
    (not_AF_of_no_digit (by decide)) (not_LF_of_no_digit (by decide))

/-- Claim C4, amended.  The claim as stated is false for the in-memory
parser: `parseFinancialEntries` matches its pattern anywhere inside a line
and silently discards the text around the match — `"rent -3000 and more"`
yields the entry `("rent", -3000)` although the line as a whole matches
neither grammar.  Amended: the persisted parser `parseMessage` never
partially parses — whenever it accepts, the whole trimmed line decomposes
along one of the two grammars, and a rejected line yields `null`, never a
zero-amount default; for the in-memory parser, a line its pattern rejects
contributes no entry at all (it is skipped, not defaulted to zero), but a
line may be consumed only partially. -/
theorem c4_whole_line :
    (∀ (s : String) (p : ParsedTransaction), parseMessage s = some p →
       AmountFirstGrammar (jsTrim s).data ∨ LabelFirstGrammar (jsTrim s).data) ∧
    (∀ currentDate line : String, scanMatch line.data = none →
       parseLine currentDate line = none) := by
  constructor
  · exact parseMessage_grammar_sound
  · intro currentDate line h
    unfold parseLine
    rw [h]

/-- Counterexample for claim C4 as stated: `"rent -3000 and more"` matches
neither grammar as a whole line, yet `parseFinancialEntries` produces an
entry from it, silently discarding the trailing `" and more"`. -/
theorem c4_counterexample :
    parseFinancialEntries "d" "rent -3000 and more" =
      [{ description := "rent", amount := -3000, date := "d" }] ∧
    ¬ AmountFirstGrammar (jsTrim "rent -3000 and more").data ∧
    ¬ LabelFirstGrammar (jsTrim "rent -3000 and more").data := by
  refine ⟨by decide, ?_, ?_⟩
  · exact not_AF_of_head (by decide) (by decide) (by decide)
  · exact not_LF_of_last (by decide)

/-- Witness for claim C4's amended theorem: `"rent -3000"` is accepted by
`parseMessage`, so the whole trimmed line lies in one of the two grammars. -/
theorem c4_witness :
    AmountFirstGrammar (jsTrim "rent -3000").data ∨
      LabelFirstGrammar (jsTrim "rent -3000").data :=
  c4_whole_line.1 "rent -3000"
    { label := "rent", sign := Sign.negative, amount := 3000 } (by decide)

/-- Claim C2: after any interaction sequence (creations, switches, appended
text entries, clears, deletions), the balance `calculateReceiptTotal`
reports for any receipt equals the recursive sum of the amounts of the
entries currently in it, and an empty entry sequence yields balance 0. -/
theorem c2_balance_is_fold :
    (∀ (ops : List MemOp) (name : String),
       calculateReceiptTotal (applyOps ops) name =
         specSum ((entriesOf (applyOps ops) name).map (fun e => e.amount))) ∧
    (∀ (ops : List MemOp) (name : String),
       entriesOf (applyOps ops) name = [] →
       calculateReceiptTotal (applyOps ops) name = 0) := by
  constructor
  · intro ops name
    exact calcTotal_eq_specSum _ name
  · intro ops name h
    rw [calcTotal_eq_specSum _ name, h]
    rfl

/-- Witness for claim C2: in the initial state (empty interaction sequence)
every receipt has an empty entry sequence and balance 0. -/
theorem c2_witness : calculateReceiptTotal (applyOps []) "a" = 0 :=
  c2_balance_is_fold.2 [] "a" (by decide)

/-- Claim C5: the report formatter of the persisted implementation renders
exactly as §4.2 prescribes — every non-negative amount with an explicit `+`
and the positive indicator, every negative amount with `-` and the negative
indicator, both over the absolute value with locale-style thousands
separators, and the total line under the same sign-and-format convention. -/
theorem c5_formatter_convention :
    ∀ transactions, parseTransactions transactions = specReport transactions := by
  intro ts
  have hmap : (fun t : Transaction =>
      (if 0 ≤ t.amount then "💰" else "💸") ++ " " ++
        (if 0 ≤ t.amount then "+" else "-") ++ toLocaleStr t.amount.natAbs ++
        "  \"" ++ t.label ++ "\"") = specEntryLine := funext entryLine_eq
  simp only [parseTransactions, specReport, specTotalLine, specSigned]
  rw [foldl_add_tx ts 0, zero_add, hmap]
  by_cases h : (0 : Int) ≤ specSum (ts.map Transaction.amount)
  · simp only [h, if_true, str_append_assoc]
  · simp only [h, if_false, str_append_assoc]

/-- Claim C8, amended.  The claim as stated is false: the store's validation
rejects only `NaN` amounts — a non-finite amount (`Infinity`) and a
non-integer finite amount both pass the `isNaN` check and are inserted.
Amended: an empty (or all-whitespace) account name, an empty transaction
label, a `NaN` amount, or an empty account-id each fail with a validation
error raised before the insert (the embedding returns the would-be new
state only on success, so an error leaves the store untouched); non-finite
and non-integer amounts are not rejected. -/
theorem c8_validation :
    (∀ (st : DBState) (id name : String), jsTrim name = "" →
       ∃ e, createAccount st id name = Except.error e) ∧
    (∀ (st : DBState) (id : String) (p : CreateTransactionParams),
       jsTrim p.label = "" ∨ p.amount = JSNum.nan ∨ jsTrim p.accountId = "" →
       ∃ e, createTransaction st id p = Except.error e) := by
  constructor
  · intro st id name h
    refine ⟨"Account name cannot be empty", ?_⟩
    unfold createAccount
    rw [if_pos (Or.inr h)]
  · intro st id p h
    unfold createTransaction
    by_cases h1 : p.label = "" ∨ jsTrim p.label = ""
    · exact ⟨_, by rw [if_pos h1]⟩
    · rw [if_neg h1]
      by_cases h2 : p.amount.isNaN = true
      · exact ⟨_, by rw [if_pos h2]⟩
      · rcases h with h | h | h
        · exact absurd (Or.inr h) h1
        · exact absurd (by rw [h]; rfl) h2
        · rw [if_neg h2]
          exact ⟨_, by rw [if_pos (Or.inr h)]⟩

/-- Counterexample for claim C8 as stated: a transaction whose amount is the
non-finite `Infinity` passes validation and is inserted into the store. -/
theorem c8_counterexample :
    createTransaction { accounts := [{ id := "a", name := "acct" }], transactions := [] }
        "t1" { label := "food", amount := JSNum.inf, accountId := "a" } =
      Except.ok ({ id := "t1", label := "food", amount := JSNum.inf, account := "a" },
        { accounts := [{ id := "a", name := "acct" }],
          transactions := [{ id := "t1", label := "food", amount := JSNum.inf, account := "a" }] }) ∧
    createTransaction { accounts := [{ id := "a", name := "acct" }], transactions := [] }
        "t2" { label := "half", amount := JSNum.finite (1 / 2), accountId := "a" } =
      Except.ok ({ id := "t2", label := "half", amount := JSNum.finite (1 / 2), account := "a" },
        { accounts := [{ id := "a", name := "acct" }],
          transactions := [{ id := "t2", label := "half", amount := JSNum.finite (1 / 2), account := "a" }] }) :=
  ⟨rfl, rfl⟩

/-- Witness for claim C8's amended theorem: an empty label is rejected with
a validation error. -/
theorem c8_witness :
    ∃ e, createTransaction
        { accounts := [{ id := "a", name := "acct" }], transactions := [] } "t3"
        { label := " ", amount := JSNum.finite 5, accountId := "a" } =
      Except.error e :=
  c8_validation.2 _ "t3" _ (Or.inl (by decide))

/-- Claim C7: for a selected account with zero entries, the `/current`
handler replies with the short "No entries yet." message, which is distinct
from the zero-total report `formatResponse` would render; for a selected
account with entries, it replies with the full report — both renderings are
produced in their respective cases. -/
theorem c7_empty_account_rendering :
    (∀ (st : MemState) (uid : Nat) (name : String),
       st.sessions.lookup uid = some (some name) →
       entriesOf st name = [] →
       (currentReply st uid).1 = noEntriesMsg name ∧
         (currentReply st uid).1 ≠ formatResponse st name) ∧
    (∀ (st : MemState) (uid : Nat) (name : String) (r : Receipt),
       st.sessions.lookup uid = some (some name) →
       st.receipts.lookup name = some r → r.entries ≠ [] →
       (currentReply st uid).1 = formatResponse st name) := by
  constructor
  · intro st uid name hsess hemp
    have hreply : (currentReply st uid).1 = noEntriesMsg name := by
      cases hlk : st.receipts.lookup name with
      | none => simp only [currentReply, getUserSession, hsess, hlk, noEntriesMsg]
      | some r =>
        have hre : r.entries = [] := by
          unfold entriesOf at hemp
          rw [hlk] at hemp
          simpa using hemp
        simp only [currentReply, getUserSession, hsess, hlk, hre, List.isEmpty_nil,
          if_true, noEntriesMsg]
    refine ⟨hreply, ?_⟩
    rw [hreply]
    exact noEntriesMsg_ne_formatResponse st name
  · intro st uid name r hsess hlk hne
    have hie : r.entries.isEmpty = false := by
      cases h' : r.entries with
      | nil => exact absurd h' hne
      | cons a b => rfl
    simp only [currentReply, getUserSession, hsess, hlk, hie, Bool.false_eq_true,
      if_false]

/-- A state with a single selected, empty receipt. -/
def c7StateEmpty : MemState :=
  { receipts := [("a", { name := "a", entries := [] })], sessions := [(1, some "a")] }

/-- A state with a single selected receipt holding one entry. -/
def c7StateFull : MemState :=
  { receipts := [("a", { name := "a", entries := [{ description := "milk", amount := -25, date := "d" }] })],
    sessions := [(1, some "a")] }

/-- Witness for claim C7: a state with one empty selected receipt gets the
"No entries yet." reply, and a state with one non-empty selected receipt
gets the report. -/
theorem c7_witness :
    ((currentReply c7StateEmpty 1).1 = noEntriesMsg "a" ∧
      (currentReply c7StateEmpty 1).1 ≠ formatResponse c7StateEmpty "a") ∧
    (currentReply c7StateFull 1).1 = formatResponse c7StateFull "a" :=
  ⟨c7_empty_account_rendering.1 c7StateEmpty 1 "a" (by decide) (by decide),
   c7_empty_account_rendering.2 c7StateFull 1 "a"
     { name := "a", entries := [{ description := "milk", amount := -25, date := "d" }] }
     (by decide) (by decide) (by decide)⟩

/-- Claim C9: when a user deletes an existing account, the account is
removed from the store; if it was that user's currently active account the
user's active-account reference is cleared to "none", and otherwise the
user's reference is left unchanged. -/
theorem c9_delete_active_account :
    ∀ (st : MemState) (uid : Nat) (name : String) (s : Option String),
      (st.receipts.lookup name).isSome = true →
      st.sessions.lookup uid = some s →
      (deleteCommand st uid name).receipts.lookup name = none ∧
      (s = some name → (deleteCommand st uid name).sessions.lookup uid = some none) ∧
      (s ≠ some name → (deleteCommand st uid name).sessions.lookup uid = some s) := by
  intro st uid name s hsome hsess
  by_cases hs : s = some name
  · have hred : deleteCommand st uid name =
        { st with receipts := alDelete st.receipts name,
                  sessions := alSet st.sessions uid none } := by
      simp only [deleteCommand, getUserSession, hsome, if_true, hsess, hs, if_pos]
    rw [hred]
    refine ⟨lookup_alDelete_self st.receipts name, fun _ => ?_, fun hns => absurd hs hns⟩
    exact lookup_alSet_self st.sessions uid none
  · have hred : deleteCommand st uid name =
        { st with receipts := alDelete st.receipts name } := by
      simp only [deleteCommand, getUserSession, hsome, if_true, hsess, hs, if_false]
    rw [hred]
    exact ⟨lookup_alDelete_self st.receipts name, fun h => absurd h hs, fun _ => hsess⟩

/-- Witness for claim C9: deleting the active account `"a"` of user 1
removes it and clears the session; deleting the non-active `"b"` leaves the
session untouched. -/
theorem c9_witness :
    ((deleteCommand c7StateFull 1 "a").receipts.lookup "a" = none ∧
      (some "a" = some "a" →
        (deleteCommand c7StateFull 1 "a").sessions.lookup 1 = some none) ∧
      (some "a" ≠ some "a" →
        (deleteCommand c7StateFull 1 "a").sessions.lookup 1 = some (some "a"))) :=
  c9_delete_active_account c7StateFull 1 "a" (some "a") (by decide) (by decide)

/-- Claim C10: `parseFinancialEntries` is line-oriented — on a multi-line
text it produces, in line order, one entry per line its pattern matches,
skipping the lines it does not match without affecting the others — and the
text handler appends all produced entries to the current receipt in that
order. -/
theorem c10_multiline_entries :
    (∀ (currentDate : String) (ls : List String), ls ≠ [] →
       (∀ l ∈ ls, '\n' ∉ l.data) →
       parseFinancialEntries currentDate (joinNl ls) =
         (ls.filter (fun l => !(jsTrim l == ""))).filterMap (parseLine currentDate)) ∧
    (∀ (st : MemState) (uid : Nat) (name : String) (currentDate text : String),
       st.sessions.lookup uid = some (some name) →
       startsWithSlash text = false →
       parseFinancialEntries currentDate text ≠ [] →
       entriesOf (onText st uid currentDate text) name =
         entriesOf st name ++ parseFinancialEntries currentDate text) := by
  constructor
  · intro currentDate ls hne hnl
    unfold parseFinancialEntries jsSplitNl joinNl
    rw [data_mk, splitNl_joinNl (ls.map String.data) (by simpa using hne) ?_]
    · have hcomp : (ls.map String.data).map String.mk = ls := by
        rw [List.map_map]
        have : (String.mk ∘ String.data) = id := funext mk_data
        rw [this, List.map_id]
      rw [hcomp]
    · intro l' hl'
      obtain ⟨l0, hl0, rfl⟩ := List.mem_map.mp hl'
      exact hnl l0 hl0
  · intro st uid name currentDate text hsess hsw hne
    have hie : (parseFinancialEntries currentDate text).isEmpty = false := by
      cases h' : parseFinancialEntries currentDate text with
      | nil => exact absurd h' hne
      | cons a b => rfl
    have hred : onText st uid currentDate text =
        addEntriesToReceipt st name (parseFinancialEntries currentDate text) := by
      simp only [onText, hsw, Bool.false_eq_true, if_false, getUserSession, hsess, hie]
    rw [hred]
    cases hlk : st.receipts.lookup name with
    | none =>
      have hred2 : addEntriesToReceipt st name (parseFinancialEntries currentDate text) =
          MemState.mk
            (alSet (alSet st.receipts name (Receipt.mk name [])) name
              (Receipt.mk name ([] ++ parseFinancialEntries currentDate text)))
            st.sessions := by
        simp only [addEntriesToReceipt, getReceiptState, hlk]
      rw [hred2]
      unfold entriesOf
      rw [lookup_alSet_self, hlk]
      simp
    | some r =>
      have hred2 : addEntriesToReceipt st name (parseFinancialEntries currentDate text) =
          MemState.mk
            (alSet st.receipts name
              (Receipt.mk r.name (r.entries ++ parseFinancialEntries currentDate text)))
            st.sessions := by
        simp only [addEntriesToReceipt, getReceiptState, hlk]
      rw [hred2]
      unfold entriesOf
      rw [lookup_alSet_self, hlk]
      rfl

/-- Witness for claim C10 on a three-line text whose middle line matches
nothing: the two matching lines yield their entries in order. -/
theorem c10_witness :
    parseFinancialEntries "d" (joinNl ["milk -25", "xx", "bread -15"]) =
      ((["milk -25", "xx", "bread -15"].filter
        (fun l => !(jsTrim l == ""))).filterMap (parseLine "d")) :=
  c10_multiline_entries.1 "d" ["milk -25", "xx", "bread -15"] (by decide) (by decide)
